import Mathlib

/-!
LinkedList (src/src/LinkedList.cpp): a sorted, duplicate-free singly linked list.

The template class `LinkedList<ItemType>` is embedded shallowly.

* The element type is a Lean type `α` together with the three operators the code
  applies to elements (`operator<`, `operator==`, `operator!=`), collected in `Ops α`.
  Laws on the operators are never built in; they are explicit hypotheses.
* The contents of one list instance is the sequence of the `data` values of its
  nodes walked from `head` through `next`: a `List α`.  The `Node` constructor copies
  the element it is given, so the payload of a node is a value.
* A nullable `ItemType*` is an `Option α`; a `Node*` into a chain is the position of
  the node (`Option Nat`, `none` for `nullptr`).
* Methods that take a second list by reference compare addresses
  (`this == &other`); for those, list instances live in a `Store α` keyed by address.
-/

namespace LinkedList

/-- The operators of `ItemType` that the list code uses. -/
structure Ops (α : Type) where
  /-- The element `operator<`. -/
  lt : α → α → Bool
  /-- The element `operator==`. -/
  eq : α → α → Bool
  /-- The element `operator!=`. -/
  ne : α → α → Bool

variable {α : Type}

/-! ## Single-list methods -/

/-- The loop of `determineInsertNode` (lines 29-32): `rest` is the chain from `curNode`
on, `i` the position of `curNode`, `prevNode` the position of the node before it. -/
def determineInsertNode.loop (ops : Ops α) (element : α) :
    List α → Nat → Option Nat → Option Nat
  | [], _, prevNode => prevNode
  | d :: rest, i, prevNode =>
    if ops.lt d element then determineInsertNode.loop ops element rest (i + 1) (some i)
    else prevNode

/-- `determineInsertNode` (lines 25-34): the position of the node after which the new
item goes, `none` (`nullptr`) when it goes in front of the head. -/
def determineInsertNode (ops : Ops α) (l : List α) (element : α) : Option Nat :=
  determineInsertNode.loop ops element l 0 none

/-- The duplicate search of `Insert` (lines 60-66): `true` when the loop leaves through
`return false` at a node whose data `== *newItem`. -/
def Insert.findDuplicate (ops : Ops α) (newItem : α) : List α → Bool
  | [] => false
  | d :: rest => if ops.eq d newItem then true else Insert.findDuplicate ops newItem rest

/-- The splice `index->next = new Node(newItem, index->next)` (line 75) at the node in
position `index`. -/
def Insert.spliceAfter (newItem : α) : List α → Nat → List α
  | [], _ => []
  | d :: rest, 0 => d :: newItem :: rest
  | d :: rest, index + 1 => d :: Insert.spliceAfter newItem rest index

/-- `Insert` (lines 56-78): the returned flag and the contents afterwards. -/
def Insert (ops : Ops α) (l : List α) (newItem : Option α) : Bool × List α :=
  match newItem with
  | none => (false, l)
  | some x =>
    if Insert.findDuplicate ops x l then (false, l)
    else
      match determineInsertNode ops l x with
      | none => (true, x :: l)
      | some index => (true, Insert.spliceAfter x l index)

/-- `Remove` (lines 97-120): the returned flag, the contents afterwards and the value of
the reference parameter `output` afterwards (`output` is its value before the call). -/
def Remove (ops : Ops α) (nodeToRemove : α) (output : α) : List α → Bool × List α × α
  | [] => (false, [], output)
  | d :: rest =>
    if ops.eq d nodeToRemove then (true, rest, d)
    else
      let r := Remove ops nodeToRemove output rest
      (r.1, d :: r.2.1, r.2.2)

/-- The loop of `Peek` (lines 127-135): the returned flag and the value of `output`
afterwards. -/
def Peek.scan (ops : Ops α) (nodeToShow : α) (output : α) : List α → Bool × α
  | [] => (false, output)
  | d :: rest => if ops.eq d nodeToShow then (true, d) else Peek.scan ops nodeToShow output rest

/-- `Peek` (lines 123-136): the returned flag, the contents afterwards (the method is
`const`) and the value of `output` afterwards. -/
def Peek (ops : Ops α) (nodeToShow : α) (output : α) (l : List α) : Bool × List α × α :=
  ((Peek.scan ops nodeToShow output l).1, l, (Peek.scan ops nodeToShow output l).2)

/-- `isEmpty` (lines 139-141): `head == nullptr`. -/
def isEmpty (l : List α) : Bool :=
  match l with
  | [] => true
  | _ :: _ => false

/-- `DeleteList` (lines 144-152): every node is freed and `head` is reset. -/
def DeleteList (_l : List α) : List α := []

/-- A run of `Insert` calls on one list, return values dropped. -/
def insertCalls (ops : Ops α) : List α → List (Option α) → List α
  | l, [] => l
  | l, c :: calls => insertCalls ops (Insert ops l c).2 calls

/-! ## Methods on two instances -/

/-- The list instances of a program, by address. -/
abbrev Store (α : Type) := Nat → List α

/-- The store after the instance at address `i` takes contents `l`. -/
def Store.set (s : Store α) (i : Nat) (l : List α) : Store α :=
  fun k => if k = i then l else s k

/-- The store in which every instance is an empty list. -/
def Store.empty : Store α := fun _ => []

/-- The loop shared by `Merge` (160-166), `operator+` (227-233), `operator+=` (241-247),
`operator=` (191-194) and the copy constructor (44-47) when the chain walked is not the
chain inserted into: each element of `source` is copied and passed to `Insert`, and a
rejected copy is dropped. -/
def insertEach (ops : Ops α) : List α → List α → List α
  | l, [] => l
  | l, d :: rest => insertEach ops (Insert ops l (some d)).2 rest

/-- `Merge` (lines 155-170) for `this` at address `i` and `otherLinkedList` at `j`. -/
def Merge (ops : Ops α) (s : Store α) (i j : Nat) : Bool × Store α :=
  if i = j then (false, s)
  else (true, (s.set i (insertEach ops (s i) (s j))).set j (DeleteList (s j)))

/-- `operator==` on lists (lines 200-215): the parallel walk, which leaves with `false`
at the first pair of elements for which `!=` holds, and otherwise reports whether both
chains ended together. -/
def operatorEq (ops : Ops α) : List α → List α → Bool
  | d1 :: rest1, d2 :: rest2 => if ops.ne d1 d2 then false else operatorEq ops rest1 rest2
  | [], [] => true
  | [], _ :: _ => false
  | _ :: _, [] => false

/-- The copy constructor (lines 41-48): `head(nullptr)`, then every element of the other
list is inserted. -/
def copyConstructor (ops : Ops α) (otherLinkedList : List α) : List α :=
  insertEach ops [] otherLinkedList

/-- `operator+` (lines 223-235): `output` is copy-constructed from `*this`, then takes
every element of `source`; the value returned is `output`. -/
def operatorPlus (ops : Ops α) (this source : List α) : List α :=
  insertEach ops (copyConstructor ops this) source

/-- `operator=` (lines 185-197) for `this` at address `i` and `source` at `j`. -/
def operatorAssign (ops : Ops α) (s : Store α) (i j : Nat) : Store α :=
  if i = j then s else s.set i (insertEach ops (DeleteList (s i)) (s j))

/-- The position at which `Insert` (lines 68-76) links the new node. -/
def Insert.position (ops : Ops α) (l : List α) (x : α) : Nat :=
  match determineInsertNode ops l x with
  | none => 0
  | some index => index + 1

/-- The loop of `operator+=` (lines 241-247) when `source` is `*this`, so that the chain
walked is the chain inserted into: `l` is the chain, `cur` the position of `curNode` in
it (`nullptr` once past the end).  A node linked in at or before `curNode` moves
`curNode` one place down; a node linked in right after it is the next one visited.
`none` when `fuel` iterations do not finish the loop. -/
def operatorPlusAssign.selfLoop (ops : Ops α) : Nat → List α → Nat → Option (List α)
  | 0, _, _ => none
  | fuel + 1, l, cur =>
    match l[cur]? with
    | none => some l
    | some d =>
      let r := Insert ops l (some d)
      let cur1 := if r.1 && decide (Insert.position ops l d ≤ cur) then cur + 1 else cur
      operatorPlusAssign.selfLoop ops fuel r.2 (cur1 + 1)

/-- `operator+=` (lines 238-249) for `this` at address `i` and `source` at `j`; `fuel`
bounds the iterations of the loop in the aliased case `i = j`. -/
def operatorPlusAssign (ops : Ops α) (fuel : Nat) (s : Store α) (i j : Nat) :
    Option (Store α) :=
  if i = j then (operatorPlusAssign.selfLoop ops fuel (s i) 0).map (fun l => s.set i l)
  else some (s.set i (insertEach ops (s i) (s j)))

/-! ## Programs: sequences of public operations -/

/-- One call of a public mutating operation, on instances named by address.  For
`copyConstruct` and `plus` the first address is where the new object is built. -/
inductive Call (α : Type) where
  | insert (i : Nat) (newItem : Option α)
  | remove (i : Nat) (nodeToRemove output : α)
  | deleteList (i : Nat)
  | merge (i j : Nat)
  | assign (i j : Nat)
  | copyConstruct (d j : Nat)
  | plus (d i j : Nat)
  | plusAssign (i j : Nat)

/-- The store after one call (`none`: an aliased `+=` did not finish within `fuel`). -/
def Call.run (ops : Ops α) (fuel : Nat) (s : Store α) : Call α → Option (Store α)
  | .insert i newItem => some (s.set i (Insert ops (s i) newItem).2)
  | .remove i nodeToRemove output => some (s.set i (Remove ops nodeToRemove output (s i)).2.1)
  | .deleteList i => some (s.set i (DeleteList (s i)))
  | .merge i j => some (Merge ops s i j).2
  | .assign i j => some (operatorAssign ops s i j)
  | .copyConstruct d j =>
    let s0 := s.set d []
    some (s0.set d (copyConstructor ops (s0 j)))
  | .plus d i j => some (s.set d (operatorPlus ops (s i) (s j)))
  | .plusAssign i j => operatorPlusAssign ops fuel s i j

/-- The store after a sequence of calls. -/
def runCalls (ops : Ops α) (fuel : Nat) : Store α → List (Call α) → Option (Store α)
  | s, [] => some s
  | s, c :: calls =>
    match c.run ops fuel s with
    | none => none
    | some s1 => runCalls ops fuel s1 calls

/-! ## Comparison, bulk loading and printing -/

/-- `operator!=` on lists (lines 218-220): `!(*this == source)`. -/
def operatorNe (ops : Ops α) (this source : List α) : Bool :=
  !operatorEq ops this source

/-- The loop of `BuildList` (lines 87-91): `values` are the items that `file >> temp`
extracts, in order, before the extraction fails; each is passed to `Insert`, whose
result is tested and then ignored. -/
def BuildList.loop (ops : Ops α) : List α → List α → List α
  | l, [] => l
  | l, temp :: values => BuildList.loop ops (Insert ops l (some temp)).2 values

/-- `BuildList` (lines 82-94): the returned flag and the contents afterwards.  The file
is `none` when it cannot be opened (`!file`), else the items it yields. -/
def BuildList (ops : Ops α) (l : List α) (file : Option (List α)) : Bool × List α :=
  match file with
  | none => (false, l)
  | some values => (true, BuildList.loop ops l values)

/-- `operator<<` on a list (lines 173-182): the text of the stream afterwards, given its
text `outputStream` before; `write d` is what `outputStream << d` appends for an
element `d`.  After each element one space follows when `curNode->next != nullptr`. -/
def operatorStreamInsert (write : α → String) : String → List α → String
  | outputStream, [] => outputStream
  | outputStream, d :: rest =>
    operatorStreamInsert write
      (if rest.isEmpty then outputStream ++ write d else outputStream ++ write d ++ " ") rest

/-! ## Properties of element types and of lists -/

/-- The element `<` is a strict total order consistent with `==`: `<` is irreflexive and
transitive, two elements that are not `==` are ordered one way or the other, two
elements that are `==` are not ordered, and `==` is transitive. -/
structure StrictTotalOrder (ops : Ops α) : Prop where
  lt_irrefl : ∀ a, ops.lt a a = false
  lt_trans : ∀ a b c, ops.lt a b = true → ops.lt b c = true → ops.lt a c = true
  lt_total : ∀ a b, ops.eq a b = false → ops.lt a b = true ∨ ops.lt b a = true
  eq_not_lt : ∀ a b, ops.eq a b = true → ops.lt a b = false ∧ ops.lt b a = false
  eq_trans : ∀ a b c, ops.eq a b = true → ops.eq b c = true → ops.eq a c = true

/-- Walked head to tail the list is non-decreasing: no element is greater than a later
one. -/
def Sorted (ops : Ops α) (l : List α) : Prop :=
  l.Pairwise (fun a b => ops.lt b a = false)

/-- No two elements at different positions compare equal (in either order). -/
def NoDuplicates (ops : Ops α) (l : List α) : Prop :=
  l.Pairwise (fun a b => ops.eq a b = false ∧ ops.eq b a = false)

instance (ops : Ops α) (l : List α) : Decidable (Sorted ops l) := by
  unfold Sorted; infer_instance

instance (ops : Ops α) (l : List α) : Decidable (NoDuplicates ops l) := by
  unfold NoDuplicates; infer_instance

/-- The operators of `LinkedList<int>`-like instances, on natural numbers. -/
def natOps : Ops Nat where
  lt := fun a b => decide (a < b)
  eq := fun a b => decide (a = b)
  ne := fun a b => decide (a ≠ b)

end LinkedList

namespace LinkedList

variable {α : Type}

/-! ## The operators on natural numbers satisfy the laws -/

theorem natOps_strictTotalOrder : StrictTotalOrder natOps where
  lt_irrefl := by intro a; simp [natOps]
  lt_trans := by intro a b c; simp only [natOps, decide_eq_true_eq]; omega
  lt_total := by intro a b; simp only [natOps, decide_eq_true_eq, decide_eq_false_iff_not]; omega
  eq_not_lt := by
    intro a b; simp only [natOps, decide_eq_true_eq, decide_eq_false_iff_not]; omega
  eq_trans := by intro a b c; simp only [natOps, decide_eq_true_eq]; omega

/-! ## Consequences of the order laws -/

theorem StrictTotalOrder.eq_refl {ops : Ops α} (h : StrictTotalOrder ops) (a : α) :
    ops.eq a a = true := by
  cases hq : ops.eq a a with
  | true => rfl
  | false =>
    have := h.lt_total a a hq
    simp [h.lt_irrefl a] at this

theorem StrictTotalOrder.eq_symm {ops : Ops α} (h : StrictTotalOrder ops) (a b : α)
    (hab : ops.eq a b = true) : ops.eq b a = true := by
  cases hq : ops.eq b a with
  | true => rfl
  | false =>
    have h1 := h.eq_not_lt a b hab
    have h2 := h.lt_total b a hq
    simp [h1.1, h1.2] at h2

theorem StrictTotalOrder.lt_asymm {ops : Ops α} (h : StrictTotalOrder ops) (a b : α)
    (hab : ops.lt a b = true) : ops.lt b a = false := by
  cases hq : ops.lt b a with
  | false => rfl
  | true =>
    have := h.lt_trans a b a hab hq
    simp [h.lt_irrefl a] at this

/-- Not-less is transitive: `b ≥ c` and `c ≥ x` give `b ≥ x` (read right to left). -/
theorem StrictTotalOrder.not_lt_trans {ops : Ops α} (h : StrictTotalOrder ops) (b c x : α)
    (hbc : ops.lt b c = false) (hcx : ops.lt c x = false) : ops.lt b x = false := by
  cases hbx : ops.lt b x with
  | false => rfl
  | true =>
    exfalso
    cases hq : ops.eq b c with
    | true =>
      cases hq2 : ops.eq c x with
      | true =>
        have := (h.eq_not_lt b x (h.eq_trans b c x hq hq2)).1
        simp [hbx] at this
      | false =>
        rcases h.lt_total c x hq2 with h1 | h1
        · simp [hcx] at h1
        · have := h.lt_trans b x c hbx h1
          simp [hbc] at this
    | false =>
      rcases h.lt_total b c hq with h1 | h1
      · simp [hbc] at h1
      · have := h.lt_trans c b x h1 hbx
        simp [hcx] at this

/-! ## What `Insert` computes -/

theorem Insert.findDuplicate_eq_true {ops : Ops α} {x : α} {l : List α} :
    Insert.findDuplicate ops x l = true ↔ ∃ d ∈ l, ops.eq d x = true := by
  induction l with
  | nil => simp [Insert.findDuplicate]
  | cons d rest ih =>
    simp only [Insert.findDuplicate, List.mem_cons, exists_eq_or_imp]
    by_cases hd : ops.eq d x = true
    · simp [hd]
    · simp [hd, ih]

theorem Insert.findDuplicate_eq_false {ops : Ops α} {x : α} {l : List α} :
    Insert.findDuplicate ops x l = false ↔ ∀ d ∈ l, ops.eq d x = false := by
  rw [← Bool.not_eq_true, Insert.findDuplicate_eq_true]
  simp

theorem determineInsertNode.loop_eq (ops : Ops α) (x : α) (rest : List α) (i : Nat)
    (prevNode : Option Nat) :
    determineInsertNode.loop ops x rest i prevNode =
      if (rest.takeWhile (fun d => ops.lt d x)).length = 0 then prevNode
      else some (i + (rest.takeWhile (fun d => ops.lt d x)).length - 1) := by
  induction rest generalizing i prevNode with
  | nil => simp [determineInsertNode.loop]
  | cons d rest ih =>
    by_cases hd : ops.lt d x = true
    · simp only [determineInsertNode.loop, hd, if_true, List.takeWhile_cons, List.length_cons]
      rw [ih]
      by_cases h0 : (rest.takeWhile (fun d => ops.lt d x)).length = 0
      · simp [h0]
      · simp only [h0, if_false, Nat.add_one_ne_zero]
        congr 1
        omega
    · simp [determineInsertNode.loop, hd, List.takeWhile_cons]

theorem Insert.spliceAfter_eq (x : α) (l : List α) (index : Nat) (h : index < l.length) :
    Insert.spliceAfter x l index = l.take (index + 1) ++ x :: l.drop (index + 1) := by
  induction l generalizing index with
  | nil => simp at h
  | cons d rest ih =>
    cases index with
    | zero => simp [Insert.spliceAfter]
    | succ k =>
      simp only [List.length_cons, Nat.add_lt_add_iff_right] at h
      simp [Insert.spliceAfter, ih k h]

theorem take_length_takeWhile (p : α → Bool) (l : List α) :
    l.take (l.takeWhile p).length = l.takeWhile p := by
  induction l with
  | nil => simp
  | cons d rest ih =>
    by_cases hd : p d = true
    · simp [List.takeWhile_cons, hd, ih]
    · simp [List.takeWhile_cons, hd]

theorem drop_length_takeWhile (p : α → Bool) (l : List α) :
    l.drop (l.takeWhile p).length = l.dropWhile p := by
  induction l with
  | nil => simp
  | cons d rest ih =>
    by_cases hd : p d = true
    · simp [List.takeWhile_cons, List.dropWhile_cons, hd, ih]
    · simp [List.takeWhile_cons, List.dropWhile_cons, hd]

theorem length_takeWhile_le (p : α → Bool) (l : List α) :
    (l.takeWhile p).length ≤ l.length := by
  induction l with
  | nil => simp
  | cons d rest ih =>
    by_cases hd : p d = true
    · simp [List.takeWhile_cons, hd, ih]
    · simp [List.takeWhile_cons, hd]

/-- The new node goes right after the leading run of elements that are `<` the item. -/
theorem Insert_some (ops : Ops α) (l : List α) (x : α) :
    Insert ops l (some x) =
      if Insert.findDuplicate ops x l then (false, l)
      else (true, l.takeWhile (fun d => ops.lt d x) ++ x :: l.dropWhile (fun d => ops.lt d x)) := by
  unfold Insert
  by_cases hdup : Insert.findDuplicate ops x l = true
  · simp [hdup]
  · simp only [hdup, Bool.false_eq_true, if_false]
    unfold determineInsertNode
    rw [determineInsertNode.loop_eq]
    by_cases h0 : (l.takeWhile (fun d => ops.lt d x)).length = 0
    · have h1 : l.takeWhile (fun d => ops.lt d x) = [] := List.length_eq_zero.mp h0
      have h2 := List.takeWhile_append_dropWhile (fun d => ops.lt d x) l
      rw [h1] at h2
      simp only [List.nil_append] at h2
      simp [h0, h1, h2]
    · simp only [h0, if_false, Nat.zero_add]
      have hle := length_takeWhile_le (fun d => ops.lt d x) l
      rw [Insert.spliceAfter_eq _ _ _ (by omega)]
      have hk : (l.takeWhile (fun d => ops.lt d x)).length - 1 + 1 =
          (l.takeWhile (fun d => ops.lt d x)).length := by omega
      rw [hk, take_length_takeWhile, drop_length_takeWhile]

/-! ## `Insert` and the sort order -/

/-- In a sorted list nothing after the leading run of elements `< x` is `< x`. -/
theorem Sorted.dropWhile_not_lt {ops : Ops α} (h : StrictTotalOrder ops) (x : α) (l : List α)
    (hs : Sorted ops l) : ∀ b ∈ l.dropWhile (fun d => ops.lt d x), ops.lt b x = false := by
  induction l with
  | nil => simp
  | cons d rest ih =>
    have hs1 : (∀ b ∈ rest, ops.lt b d = false) ∧ Sorted ops rest := List.pairwise_cons.mp hs
    by_cases hd : ops.lt d x = true
    · simpa [List.dropWhile_cons, hd] using ih hs1.2
    · have hd1 : ops.lt d x = false := by simpa using hd
      intro b hb
      rw [List.dropWhile_cons] at hb
      simp only [hd1, Bool.false_eq_true, if_false, List.mem_cons] at hb
      rcases hb with rfl | hb
      · exact hd1
      · exact h.not_lt_trans b d x (hs1.1 b hb) hd1

theorem Sorted.insert_position {ops : Ops α} (h : StrictTotalOrder ops) (x : α) (l : List α)
    (hs : Sorted ops l) :
    Sorted ops (l.takeWhile (fun d => ops.lt d x) ++ x :: l.dropWhile (fun d => ops.lt d x)) := by
  have hsplit := List.takeWhile_append_dropWhile (fun d => ops.lt d x) l
  have hs1 : Sorted ops (l.takeWhile (fun d => ops.lt d x) ++ l.dropWhile (fun d => ops.lt d x)) := by
    rw [hsplit]; exact hs
  obtain ⟨htw, hdw, hcross⟩ := List.pairwise_append.mp hs1
  refine List.pairwise_append.mpr ⟨htw, List.pairwise_cons.mpr ⟨?_, hdw⟩, ?_⟩
  · exact Sorted.dropWhile_not_lt h x l hs
  · intro a ha b hb
    rcases List.mem_cons.mp hb with rfl | hb
    · have : ops.lt a b = true := by simpa using List.mem_takeWhile_imp ha
      exact h.lt_asymm a b this
    · exact hcross a ha b hb

/-- One `Insert` keeps a sorted list sorted. -/
theorem sorted_of_Insert {ops : Ops α} (h : StrictTotalOrder ops) (l : List α) (c : Option α)
    (hs : Sorted ops l) : Sorted ops (Insert ops l c).2 := by
  cases c with
  | none => exact hs
  | some x =>
    rw [Insert_some]
    by_cases hdup : Insert.findDuplicate ops x l = true
    · simpa [hdup] using hs
    · simp only [hdup, Bool.false_eq_true, if_false]
      exact Sorted.insert_position h x l hs

theorem sorted_of_insertCalls {ops : Ops α} (h : StrictTotalOrder ops) (l : List α)
    (calls : List (Option α)) (hs : Sorted ops l) : Sorted ops (insertCalls ops l calls) := by
  induction calls generalizing l with
  | nil => exact hs
  | cons c calls ih => exact ih _ (sorted_of_Insert h l c hs)

/-- In a sorted list the elements `< x` are exactly the leading run of elements `< x`. -/
theorem Sorted.filter_lt {ops : Ops α} (h : StrictTotalOrder ops) (x : α) (l : List α)
    (hs : Sorted ops l) :
    l.filter (fun d => ops.lt d x) = l.takeWhile (fun d => ops.lt d x) ∧
    l.filter (fun d => !ops.lt d x) = l.dropWhile (fun d => ops.lt d x) := by
  have hdw := Sorted.dropWhile_not_lt h x l hs
  have htw : ∀ a ∈ l.takeWhile (fun d => ops.lt d x), ops.lt a x = true := by
    intro a ha; simpa using List.mem_takeWhile_imp ha
  have hsplit := List.takeWhile_append_dropWhile (fun d => ops.lt d x) l
  constructor
  · conv_lhs => rw [← hsplit]
    rw [List.filter_append, List.filter_eq_self.mpr (by simpa using htw),
      List.filter_eq_nil_iff.mpr (by simpa using hdw), List.append_nil]
  · conv_lhs => rw [← hsplit]
    rw [List.filter_append, List.filter_eq_nil_iff.mpr (by simpa using htw),
      List.filter_eq_self.mpr (by simpa using hdw), List.nil_append]

/-! ## Claims about `Insert` -/

/-- C1: when the element `<` is a strict total order consistent with `==`, then for every
finite sequence of `Insert` calls on an initially empty list (null arguments included),
the list after each call (after the first `k` calls, for every `k`) is non-decreasing
from head to tail: no element is greater than a later one. -/
theorem insert_calls_sorted (ops : Ops α) (h : StrictTotalOrder ops)
    (calls : List (Option α)) (k : Nat) :
    Sorted ops (insertCalls ops [] (calls.take k)) :=
  sorted_of_insertCalls h [] (calls.take k) List.Pairwise.nil

theorem insert_calls_sorted_witness :
    StrictTotalOrder natOps ∧
      Sorted natOps (insertCalls natOps [] ([some 3, some 1, none, some 2, some 3].take 4)) :=
  ⟨natOps_strictTotalOrder, insert_calls_sorted natOps natOps_strictTotalOrder _ 4⟩

/-- C3: under a strict total order consistent with `==`, for a sorted list `L` and an
item `x` to which no element of `L` compares equal, `Insert(x)` returns true and the
list becomes the elements of `L` that are `< x` in their order, then `x`, then the other
elements of `L` in their order; when no element of `L` is `< x` (in particular when `L`
is empty) `x` becomes the head, in front of all of `L`.  (That `L` has no duplicates is
assumed as in the claim; the proof does not use it.) -/
theorem insert_absent (ops : Ops α) (h : StrictTotalOrder ops) (L : List α) (x : α)
    (hs : Sorted ops L) (_hnd : NoDuplicates ops L) (hx : ∀ d ∈ L, ops.eq d x = false) :
    Insert ops L (some x) =
        (true, L.filter (fun d => ops.lt d x) ++ x :: L.filter (fun d => !ops.lt d x)) ∧
      ((∀ d ∈ L, ops.lt d x = false) → Insert ops L (some x) = (true, x :: L)) := by
  have hdup : Insert.findDuplicate ops x L = false := Insert.findDuplicate_eq_false.mpr hx
  have hf := Sorted.filter_lt h x L hs
  have hmain : Insert ops L (some x) =
      (true, L.filter (fun d => ops.lt d x) ++ x :: L.filter (fun d => !ops.lt d x)) := by
    rw [Insert_some, hf.1, hf.2]
    simp [hdup]
  refine ⟨hmain, ?_⟩
  intro hall
  rw [hmain, List.filter_eq_nil_iff.mpr (by simpa using hall),
    List.filter_eq_self.mpr (by simpa using hall)]
  rfl

theorem insert_absent_witness :
    (StrictTotalOrder natOps ∧ Sorted natOps [1, 3, 5] ∧ NoDuplicates natOps [1, 3, 5] ∧
      ∀ d ∈ [1, 3, 5], natOps.eq d 4 = false) ∧
    Insert natOps [1, 3, 5] (some 4) = (true, [1, 3, 4, 5]) :=
  ⟨⟨natOps_strictTotalOrder, by decide, by decide, by decide⟩,
    (insert_absent natOps natOps_strictTotalOrder [1, 3, 5] 4 (by decide) (by decide)
      (by decide)).1⟩

/-- C4: for every list `L`, sorted or not, and every item `x` to which some element of
`L` compares equal, `Insert(x)` returns false and the list afterwards is `L`, element
for element. -/
theorem insert_present (ops : Ops α) (L : List α) (x : α)
    (hx : ∃ d ∈ L, ops.eq d x = true) : Insert ops L (some x) = (false, L) := by
  rw [Insert_some, Insert.findDuplicate_eq_true.mpr hx]
  rfl

theorem insert_present_witness :
    (∃ d ∈ [5, 1, 3], natOps.eq d 3 = true) ∧ Insert natOps [5, 1, 3] (some 3) = (false, [5, 1, 3]) :=
  ⟨by decide, insert_present natOps [5, 1, 3] 3 (by decide)⟩

/-! ## `Remove` and `Peek` -/

/-- A list with an element satisfying `p` splits at the first such element. -/
theorem exists_first_split (p : α → Bool) (l : List α) (h : ∃ d ∈ l, p d = true) :
    ∃ pre d post, l = pre ++ d :: post ∧ (∀ e ∈ pre, p e = false) ∧ p d = true := by
  induction l with
  | nil => simp at h
  | cons a rest ih =>
    by_cases ha : p a = true
    · exact ⟨[], a, rest, rfl, by simp, ha⟩
    · have ha1 : p a = false := by simpa using ha
      have hrest : ∃ d ∈ rest, p d = true := by
        obtain ⟨d, hd, hpd⟩ := h
        rcases List.mem_cons.mp hd with rfl | hd
        · exact absurd hpd ha
        · exact ⟨d, hd, hpd⟩
      obtain ⟨pre, d, post, hl, hpre, hd⟩ := ih hrest
      refine ⟨a :: pre, d, post, by simp [hl], ?_, hd⟩
      intro e he
      rcases List.mem_cons.mp he with rfl | he
      · exact ha1
      · exact hpre e he

theorem Remove_first (ops : Ops α) (v out : α) (pre : List α) (d : α) (post : List α)
    (hpre : ∀ e ∈ pre, ops.eq e v = false) (hd : ops.eq d v = true) :
    Remove ops v out (pre ++ d :: post) = (true, pre ++ post, d) := by
  induction pre with
  | nil => simp [Remove, hd]
  | cons a pre ih =>
    have ha : ops.eq a v = false := hpre a (List.mem_cons_self a pre)
    have := ih (fun e he => hpre e (List.mem_cons_of_mem a he))
    simp [Remove, ha, this]

theorem Remove_none (ops : Ops α) (v out : α) (l : List α)
    (h : ∀ d ∈ l, ops.eq d v = false) : Remove ops v out l = (false, l, out) := by
  induction l with
  | nil => rfl
  | cons a rest ih =>
    have ha : ops.eq a v = false := h a (List.mem_cons_self a rest)
    have := ih (fun e he => h e (List.mem_cons_of_mem a he))
    simp [Remove, ha, this]

theorem Peek.scan_first (ops : Ops α) (v out : α) (pre : List α) (d : α) (post : List α)
    (hpre : ∀ e ∈ pre, ops.eq e v = false) (hd : ops.eq d v = true) :
    Peek.scan ops v out (pre ++ d :: post) = (true, d) := by
  induction pre with
  | nil => simp [Peek.scan, hd]
  | cons a pre ih =>
    have ha : ops.eq a v = false := hpre a (List.mem_cons_self a pre)
    have := ih (fun e he => hpre e (List.mem_cons_of_mem a he))
    simp [Peek.scan, ha, this]

theorem Peek.scan_none (ops : Ops α) (v out : α) (l : List α)
    (h : ∀ d ∈ l, ops.eq d v = false) : Peek.scan ops v out l = (false, out) := by
  induction l with
  | nil => rfl
  | cons a rest ih =>
    have ha : ops.eq a v = false := h a (List.mem_cons_self a rest)
    have := ih (fun e he => h e (List.mem_cons_of_mem a he))
    simp [Peek.scan, ha, this]

/-- C5: for every list `L` holding an element that compares equal to `v`,
`Remove(v, out)` returns true, sets `out` to the first element of `L` equal to `v`, and
leaves `L` with exactly that node taken out: `L` is `pre`, then that element `d`, then
`post`, with nothing in `pre` equal to `v`, and the list afterwards is `pre` followed by
`post` (so `post` from the head on when `d` was the first node). -/
theorem remove_present (ops : Ops α) (L : List α) (v out : α)
    (h : ∃ d ∈ L, ops.eq d v = true) :
    ∃ pre d post, L = pre ++ d :: post ∧ (∀ e ∈ pre, ops.eq e v = false) ∧
      ops.eq d v = true ∧ Remove ops v out L = (true, pre ++ post, d) := by
  obtain ⟨pre, d, post, hL, hpre, hd⟩ := exists_first_split (fun e => ops.eq e v) L h
  exact ⟨pre, d, post, hL, hpre, hd, hL ▸ Remove_first ops v out pre d post hpre hd⟩

theorem remove_present_witness :
    (∃ d ∈ [1, 3, 5], natOps.eq d 3 = true) ∧
    ∃ pre d post, [1, 3, 5] = pre ++ d :: post ∧ (∀ e ∈ pre, natOps.eq e 3 = false) ∧
      natOps.eq d 3 = true ∧ Remove natOps 3 0 [1, 3, 5] = (true, pre ++ post, d) :=
  ⟨by decide, remove_present natOps [1, 3, 5] 3 0 (by decide)⟩

/-- C6: for every list `L` and value `v` to which no element of `L` compares equal,
`Remove(v, out)` returns false and the list afterwards is `L` (and `out` is not
written). -/
theorem remove_absent (ops : Ops α) (L : List α) (v out : α)
    (h : ∀ d ∈ L, ops.eq d v = false) : Remove ops v out L = (false, L, out) :=
  Remove_none ops v out L h

theorem remove_absent_witness :
    (∀ d ∈ [1, 3, 5], natOps.eq d 4 = false) ∧ Remove natOps 4 0 [1, 3, 5] = (false, [1, 3, 5], 0) :=
  ⟨by decide, remove_absent natOps [1, 3, 5] 4 0 (by decide)⟩

/-- C7: for every list `L` and value `v`, `Peek(v, out)` returns true exactly when some
element of `L` compares equal to `v`; when it returns true, `out` is the first such
element (`L` is `pre`, then `d`, then `post`, nothing in `pre` equals `v`, and `out` is
`d`); and whatever it returns, the list afterwards is `L`. -/
theorem peek_spec (ops : Ops α) (L : List α) (v out : α) :
    ((Peek ops v out L).1 = true ↔ ∃ d ∈ L, ops.eq d v = true) ∧
    ((Peek ops v out L).1 = true →
      ∃ pre d post, L = pre ++ d :: post ∧ (∀ e ∈ pre, ops.eq e v = false) ∧
        ops.eq d v = true ∧ (Peek ops v out L).2.2 = d) ∧
    (Peek ops v out L).2.1 = L := by
  have key : (∃ d ∈ L, ops.eq d v = true) →
      ∃ pre d post, L = pre ++ d :: post ∧ (∀ e ∈ pre, ops.eq e v = false) ∧
        ops.eq d v = true ∧ Peek.scan ops v out L = (true, d) := by
    intro h
    obtain ⟨pre, d, post, hL, hpre, hd⟩ := exists_first_split (fun e => ops.eq e v) L h
    exact ⟨pre, d, post, hL, hpre, hd, hL ▸ Peek.scan_first ops v out pre d post hpre hd⟩
  have found : (Peek ops v out L).1 = true → ∃ d ∈ L, ops.eq d v = true := by
    intro hp
    by_contra hne
    have hall : ∀ d ∈ L, ops.eq d v = false := by
      intro d hd
      cases hq : ops.eq d v with
      | false => rfl
      | true => exact absurd ⟨d, hd, hq⟩ hne
    simp [Peek, Peek.scan_none ops v out L hall] at hp
  refine ⟨⟨found, ?_⟩, ?_, rfl⟩
  · intro h
    obtain ⟨pre, d, post, _, _, _, hscan⟩ := key h
    simp [Peek, hscan]
  · intro hp
    obtain ⟨pre, d, post, hL, hpre, hd, hscan⟩ := key (found hp)
    exact ⟨pre, d, post, hL, hpre, hd, by simp [Peek, hscan]⟩

theorem peek_spec_witness :
    (Peek natOps 3 0 [1, 3, 5]).1 = true ∧ (Peek natOps 3 0 [1, 3, 5]).2.2 = 3 ∧
      (Peek natOps 4 0 [1, 3, 5]).1 = false ∧ (Peek natOps 3 0 [1, 3, 5]).2.1 = [1, 3, 5] :=
  ⟨(peek_spec natOps [1, 3, 5] 3 0).1.2 (by decide), by decide, by decide,
    (peek_spec natOps [1, 3, 5] 3 0).2.2⟩

/-! ## `Insert` followed by `Remove` -/

theorem operatorEq_self (ops : Ops α) (hne : ∀ a, ops.ne a a = false) (l : List α) :
    operatorEq ops l l = true := by
  induction l with
  | nil => rfl
  | cons a rest ih => simp [operatorEq, hne a, ih]

/-- C8: under a strict total order consistent with `==`, with `!=` the negation of `==`,
for a sorted duplicate-free list `L` and an element `e` to which no element of `L`
compares equal: `Insert(e)` returns true, the following `Remove(e, out)` returns true
with `out` equal to `e`, and the list is then `L` again, same elements in the same
order, which `operator==` reports as equal to `L`.  (That `L` is sorted and has no
duplicates is assumed as in the claim; the proof does not use it.) -/
theorem insert_then_remove (ops : Ops α) (h : StrictTotalOrder ops)
    (hne : ∀ a b, ops.ne a b = !ops.eq a b) (L : List α) (e out : α)
    (_hs : Sorted ops L) (_hnd : NoDuplicates ops L) (he : ∀ d ∈ L, ops.eq d e = false) :
    (Insert ops L (some e)).1 = true ∧
    Remove ops e out (Insert ops L (some e)).2 = (true, L, e) ∧
    operatorEq ops (Remove ops e out (Insert ops L (some e)).2).2.1 L = true := by
  have hdup : Insert.findDuplicate ops e L = false := Insert.findDuplicate_eq_false.mpr he
  have hins : Insert ops L (some e) =
      (true, L.takeWhile (fun d => ops.lt d e) ++ e :: L.dropWhile (fun d => ops.lt d e)) := by
    rw [Insert_some]; simp [hdup]
  have hrem : Remove ops e out (Insert ops L (some e)).2 = (true, L, e) := by
    rw [hins]
    have := Remove_first ops e out (L.takeWhile (fun d => ops.lt d e)) e
      (L.dropWhile (fun d => ops.lt d e))
      (fun a ha => he a (List.takeWhile_subset _ ha)) (h.eq_refl e)
    rw [List.takeWhile_append_dropWhile] at this
    exact this
  refine ⟨by rw [hins], hrem, ?_⟩
  rw [hrem]
  exact operatorEq_self ops (fun a => by rw [hne, h.eq_refl]; rfl) L

theorem insert_then_remove_witness :
    (StrictTotalOrder natOps ∧ (∀ a b, natOps.ne a b = !natOps.eq a b) ∧
      Sorted natOps [1, 3, 5] ∧ NoDuplicates natOps [1, 3, 5] ∧
      ∀ d ∈ [1, 3, 5], natOps.eq d 4 = false) ∧
    Remove natOps 4 0 (Insert natOps [1, 3, 5] (some 4)).2 = (true, [1, 3, 5], 4) :=
  ⟨⟨natOps_strictTotalOrder, by intro a b; simp [natOps], by decide, by decide, by decide⟩,
    (insert_then_remove natOps natOps_strictTotalOrder (by intro a b; simp [natOps])
      [1, 3, 5] 4 0 (by decide) (by decide) (by decide)).2.1⟩

/-! ## `Merge` -/

@[simp] theorem Store.set_same (s : Store α) (i : Nat) (l : List α) : (s.set i l) i = l := by
  simp [Store.set]

theorem Store.set_other (s : Store α) (i k : Nat) (l : List α) (h : k ≠ i) :
    (s.set i l) k = s k := by
  simp [Store.set, h]

/-- `Insert` only adds: the old contents are kept, in order. -/
theorem Insert_sublist (ops : Ops α) (l : List α) (c : Option α) :
    List.Sublist l (Insert ops l c).2 := by
  cases c with
  | none => exact List.Sublist.refl l
  | some x =>
    rw [Insert_some]
    by_cases hdup : Insert.findDuplicate ops x l = true
    · simp [hdup]
    · simp only [hdup, Bool.false_eq_true, if_false]
      conv_lhs => rw [← List.takeWhile_append_dropWhile (fun d => ops.lt d x) l]
      exact List.Sublist.append (List.Sublist.refl _) (List.sublist_cons_self _ _)

theorem insertEach_sublist (ops : Ops α) (l source : List α) :
    List.Sublist l (insertEach ops l source) := by
  induction source generalizing l with
  | nil => exact List.Sublist.refl l
  | cons d rest ih => exact (Insert_sublist ops l (some d)).trans (ih _)

/-- After `Insert(y)` the list holds an element equal to `y`, whatever was returned. -/
theorem Insert_holds_equal (ops : Ops α) (hrefl : ∀ a, ops.eq a a = true) (l : List α)
    (y : α) : ∃ d ∈ (Insert ops l (some y)).2, ops.eq d y = true := by
  rw [Insert_some]
  by_cases hdup : Insert.findDuplicate ops y l = true
  · simpa [hdup] using Insert.findDuplicate_eq_true.mp hdup
  · simp only [hdup, Bool.false_eq_true, if_false]
    exact ⟨y, by simp, hrefl y⟩

theorem insertEach_holds_equal (ops : Ops α) (hrefl : ∀ a, ops.eq a a = true)
    (l source : List α) : ∀ y ∈ source, ∃ d ∈ insertEach ops l source, ops.eq d y = true := by
  induction source generalizing l with
  | nil => simp
  | cons y0 rest ih =>
    intro y hy
    rcases List.mem_cons.mp hy with rfl | hy
    · obtain ⟨d, hd, hdy⟩ := Insert_holds_equal ops hrefl l y
      exact ⟨d, (insertEach_sublist ops _ rest).subset hd, hdy⟩
    · exact ih _ y hy

/-- C9: when `==` is reflexive, for lists `a` (at address `i`) and `b` (at a different
address `j`), `a.Merge(b)` returns true, leaves `b` empty (`isEmpty` is true) however
many insertions succeeded, every element that was in `b` has an equal element in `a`
afterwards, and every element that was in `a` is still in `a`. -/
theorem merge_distinct (ops : Ops α) (hrefl : ∀ a, ops.eq a a = true) (s : Store α)
    (i j : Nat) (hij : i ≠ j) :
    (Merge ops s i j).1 = true ∧
    isEmpty ((Merge ops s i j).2 j) = true ∧
    (∀ y ∈ s j, ∃ d ∈ (Merge ops s i j).2 i, ops.eq d y = true) ∧
    (∀ x ∈ s i, x ∈ (Merge ops s i j).2 i) := by
  have hi : (Merge ops s i j).2 i = insertEach ops (s i) (s j) := by
    simp [Merge, hij, Store.set_other _ j i _ hij]
  have hj : (Merge ops s i j).2 j = [] := by
    simp [Merge, hij, DeleteList]
  refine ⟨by simp [Merge, hij], by rw [hj]; rfl, ?_, ?_⟩
  · rw [hi]; exact insertEach_holds_equal ops hrefl (s i) (s j)
  · rw [hi]; exact fun x hx => (insertEach_sublist ops (s i) (s j)).subset hx

theorem merge_distinct_witness :
    ((∀ a, natOps.eq a a = true) ∧ 0 ≠ 1) ∧
    (Merge natOps ((Store.empty.set 0 [1, 3, 5]).set 1 [2, 3, 4]) 0 1).1 = true ∧
    (∀ y ∈ ((Store.empty.set 0 [1, 3, 5]).set 1 [2, 3, 4]) 1,
      ∃ d ∈ (Merge natOps ((Store.empty.set 0 [1, 3, 5]).set 1 [2, 3, 4]) 0 1).2 0,
        natOps.eq d y = true) :=
  ⟨⟨by intro a; simp [natOps], by decide⟩,
    (merge_distinct natOps (by intro a; simp [natOps])
      ((Store.empty.set 0 [1, 3, 5]).set 1 [2, 3, 4]) 0 1 (by decide)).1,
    (merge_distinct natOps (by intro a; simp [natOps])
      ((Store.empty.set 0 [1, 3, 5]).set 1 [2, 3, 4]) 0 1 (by decide)).2.2.1⟩

/-- C10: for every list `a`, empty or not, `a.Merge(a)` (the argument is the receiver
itself, at address `i`) returns false and leaves every list of the program, `a`
included, exactly as it was: `a` keeps its elements in their order and is not emptied. -/
theorem merge_self (ops : Ops α) (s : Store α) (i : Nat) :
    (Merge ops s i i).1 = false ∧ (Merge ops s i i).2 = s ∧ (Merge ops s i i).2 i = s i := by
  simp [Merge]

/-! ## The no-duplicates invariant over programs -/

theorem noDuplicates_of_Insert {ops : Ops α}
    (hsymm : ∀ a b, ops.eq a b = true → ops.eq b a = true) (l : List α) (c : Option α)
    (hnd : NoDuplicates ops l) : NoDuplicates ops (Insert ops l c).2 := by
  cases c with
  | none => exact hnd
  | some x =>
    rw [Insert_some]
    by_cases hdup : Insert.findDuplicate ops x l = true
    · simpa [hdup] using hnd
    · have hx : ∀ d ∈ l, ops.eq d x = false :=
        Insert.findDuplicate_eq_false.mp (by simpa using hdup)
      simp only [hdup, Bool.false_eq_true, if_false]
      have hperm : List.Perm
          (l.takeWhile (fun d => ops.lt d x) ++ x :: l.dropWhile (fun d => ops.lt d x))
          (x :: l) := by
        have := @List.perm_middle α x (l.takeWhile (fun d => ops.lt d x))
          (l.dropWhile (fun d => ops.lt d x))
        rwa [List.takeWhile_append_dropWhile] at this
      refine (List.Perm.pairwise_iff (fun hab => ⟨hab.2, hab.1⟩) hperm).mpr ?_
      refine List.pairwise_cons.mpr ⟨?_, hnd⟩
      intro d hd
      refine ⟨?_, hx d hd⟩
      cases hq : ops.eq x d with
      | false => rfl
      | true =>
        have := hsymm x d hq
        rw [hx d hd] at this
        exact absurd this (by simp)

theorem noDuplicates_of_insertEach {ops : Ops α}
    (hsymm : ∀ a b, ops.eq a b = true → ops.eq b a = true) (l source : List α)
    (hnd : NoDuplicates ops l) : NoDuplicates ops (insertEach ops l source) := by
  induction source generalizing l with
  | nil => exact hnd
  | cons d rest ih => exact ih _ (noDuplicates_of_Insert hsymm l (some d) hnd)

/-- `Remove` only takes away: what is left keeps its order. -/
theorem Remove_sublist (ops : Ops α) (v out : α) (l : List α) :
    List.Sublist (Remove ops v out l).2.1 l := by
  induction l with
  | nil => exact List.Sublist.refl _
  | cons d rest ih =>
    by_cases hd : ops.eq d v = true
    · simp [Remove, hd]
    · simpa [Remove, hd] using ih

/-- When `==` is reflexive every copy made by an aliased `+=` is rejected as a duplicate,
so the loop visits each node once and leaves the chain as it was. -/
theorem operatorPlusAssign.selfLoop_eq (ops : Ops α) (hrefl : ∀ a, ops.eq a a = true)
    (fuel : Nat) (l : List α) (cur : Nat) (hfuel : l.length ≤ fuel + cur) :
    operatorPlusAssign.selfLoop ops (fuel + 1) l cur = some l := by
  induction fuel generalizing cur with
  | zero =>
    have hnone : l[cur]? = none := List.getElem?_eq_none (by omega)
    simp [operatorPlusAssign.selfLoop, hnone]
  | succ f ih =>
    unfold operatorPlusAssign.selfLoop
    cases hget : l[cur]? with
    | none => rfl
    | some d =>
      have hmem : d ∈ l := List.getElem?_mem hget
      have hins : Insert ops l (some d) = (false, l) := by
        rw [Insert_some, Insert.findDuplicate_eq_true.mpr ⟨d, hmem, hrefl d⟩]
        rfl
      simp only [hins, Bool.false_and, Bool.false_eq_true, if_false]
      exact ih (cur + 1) (by omega)

theorem Store.set_self (s : Store α) (i : Nat) : s.set i (s i) = s := by
  funext k
  by_cases hk : k = i
  · simp [Store.set, hk]
  · simp [Store.set, hk]

theorem Store.noDuplicates_set {ops : Ops α} (s : Store α) (i : Nat) (l : List α)
    (hs : ∀ k, NoDuplicates ops (s k)) (hl : NoDuplicates ops l) :
    ∀ k, NoDuplicates ops ((s.set i l) k) := by
  intro k
  by_cases hk : k = i
  · simpa [Store.set, hk] using hl
  · simpa [Store.set, hk] using hs k

/-- One call keeps every list of the store duplicate-free, and returns once the fuel
exceeds a bound that depends on the store alone. -/
theorem Call.run_noDuplicates (ops : Ops α) (hrefl : ∀ a, ops.eq a a = true)
    (hsymm : ∀ a b, ops.eq a b = true → ops.eq b a = true) (c : Call α) (s : Store α)
    (hs : ∀ k, NoDuplicates ops (s k)) :
    ∃ s1, (∃ fuel0, ∀ fuel, fuel0 ≤ fuel → c.run ops fuel s = some s1) ∧
      ∀ k, NoDuplicates ops (s1 k) := by
  cases c with
  | insert i newItem =>
    exact ⟨_, ⟨0, fun _ _ => rfl⟩,
      Store.noDuplicates_set s i _ hs (noDuplicates_of_Insert hsymm _ _ (hs i))⟩
  | remove i nodeToRemove output =>
    exact ⟨_, ⟨0, fun _ _ => rfl⟩,
      Store.noDuplicates_set s i _ hs
        (List.Pairwise.sublist (Remove_sublist ops nodeToRemove output (s i)) (hs i))⟩
  | deleteList i =>
    exact ⟨_, ⟨0, fun _ _ => rfl⟩, Store.noDuplicates_set s i _ hs List.Pairwise.nil⟩
  | merge i j =>
    refine ⟨_, ⟨0, fun _ _ => rfl⟩, ?_⟩
    by_cases hij : i = j
    · simpa [Merge, hij] using hs
    · simp only [Merge, hij, if_false]
      exact Store.noDuplicates_set _ j _
        (Store.noDuplicates_set s i _ hs (noDuplicates_of_insertEach hsymm _ _ (hs i)))
        List.Pairwise.nil
  | assign i j =>
    refine ⟨_, ⟨0, fun _ _ => rfl⟩, ?_⟩
    by_cases hij : i = j
    · simpa [operatorAssign, hij] using hs
    · simp only [operatorAssign, hij, if_false]
      exact Store.noDuplicates_set s i _ hs
        (noDuplicates_of_insertEach hsymm _ _ List.Pairwise.nil)
  | copyConstruct d j =>
    exact ⟨_, ⟨0, fun _ _ => rfl⟩,
      Store.noDuplicates_set _ d _ (Store.noDuplicates_set s d _ hs List.Pairwise.nil)
        (noDuplicates_of_insertEach hsymm _ _ List.Pairwise.nil)⟩
  | plus d i j =>
    exact ⟨_, ⟨0, fun _ _ => rfl⟩,
      Store.noDuplicates_set s d _ hs
        (noDuplicates_of_insertEach hsymm _ _
          (noDuplicates_of_insertEach hsymm _ _ List.Pairwise.nil))⟩
  | plusAssign i j =>
    by_cases hij : i = j
    · subst hij
      refine ⟨s, ⟨(s i).length + 1, ?_⟩, hs⟩
      intro fuel hfuel
      obtain ⟨f, rfl⟩ : ∃ f, fuel = f + 1 := ⟨fuel - 1, by omega⟩
      simp only [Call.run, operatorPlusAssign, if_true]
      rw [operatorPlusAssign.selfLoop_eq ops hrefl f (s i) 0 (by omega)]
      simp [Store.set_self]
    · refine ⟨s.set i (insertEach ops (s i) (s j)), ⟨0, ?_⟩, ?_⟩
      · intro fuel _
        simp [Call.run, operatorPlusAssign, hij]
      · exact Store.noDuplicates_set s i _ hs (noDuplicates_of_insertEach hsymm _ _ (hs i))

theorem runCalls_noDuplicates (ops : Ops α) (hrefl : ∀ a, ops.eq a a = true)
    (hsymm : ∀ a b, ops.eq a b = true → ops.eq b a = true) (calls : List (Call α))
    (s : Store α) (hs : ∀ k, NoDuplicates ops (s k)) :
    ∃ s1, (∃ fuel0, ∀ fuel, fuel0 ≤ fuel → runCalls ops fuel s calls = some s1) ∧
      ∀ k, NoDuplicates ops (s1 k) := by
  induction calls generalizing s with
  | nil => exact ⟨s, ⟨0, fun _ _ => rfl⟩, hs⟩
  | cons c calls ih =>
    obtain ⟨s1, ⟨f1, hrun1⟩, hs1⟩ := Call.run_noDuplicates ops hrefl hsymm c s hs
    obtain ⟨s2, ⟨f2, hrun2⟩, hs2⟩ := ih s1 hs1
    refine ⟨s2, ⟨max f1 f2, ?_⟩, hs2⟩
    intro fuel hfuel
    simp only [runCalls, hrun1 fuel (le_trans (le_max_left f1 f2) hfuel)]
    exact hrun2 fuel (le_trans (le_max_right f1 f2) hfuel)

/-- C2: when the element `==` is reflexive and symmetric, every finite sequence of
`Insert`, `Remove`, `DeleteList`, `Merge`, `operator=`, copy construction, `operator+`
and `operator+=` calls (on any instances, aliased or not), started with every list
empty, runs to completion (with enough fuel for the aliased `+=` loops) and leaves a
store in which no list holds two elements at different positions that compare equal.
Every prefix of a sequence is a sequence, so this holds after each call. -/
theorem no_duplicates_invariant (ops : Ops α) (hrefl : ∀ a, ops.eq a a = true)
    (hsymm : ∀ a b, ops.eq a b = true → ops.eq b a = true) (calls : List (Call α)) :
    ∃ s, (∃ fuel0, ∀ fuel, fuel0 ≤ fuel → runCalls ops fuel Store.empty calls = some s) ∧
      ∀ k, NoDuplicates ops (s k) :=
  runCalls_noDuplicates ops hrefl hsymm calls Store.empty (fun _ => List.Pairwise.nil)

theorem no_duplicates_invariant_witness :
    ((∀ a, natOps.eq a a = true) ∧ ∀ a b, natOps.eq a b = true → natOps.eq b a = true) ∧
    ∃ s, (∃ fuel0, ∀ fuel, fuel0 ≤ fuel →
        runCalls natOps fuel Store.empty
          [.insert 0 (some 3), .insert 0 (some 1), .insert 0 (some 3), .insert 1 (some 2),
            .plusAssign 0 0, .merge 0 1, .plus 2 0 0, .remove 2 3 0, .assign 1 2,
            .copyConstruct 3 1, .deleteList 0] = some s) ∧
      ∀ k, NoDuplicates natOps (s k) :=
  ⟨⟨by intro a; simp [natOps], by intro a b; simp only [natOps, decide_eq_true_eq]; omega⟩,
    no_duplicates_invariant natOps (by intro a; simp [natOps])
      (by intro a b; simp only [natOps, decide_eq_true_eq]; omega) _⟩

/-! ## Equality of lists -/

theorem operatorEq_iff_forall₂ (ops : Ops α) (hne : ∀ x y, ops.ne x y = !ops.eq x y)
    (a b : List α) :
    operatorEq ops a b = true ↔ List.Forall₂ (fun x y => ops.eq x y = true) a b := by
  induction a generalizing b with
  | nil =>
    cases b with
    | nil => simp [operatorEq]
    | cons y b => simp [operatorEq]
  | cons x a ih =>
    cases b with
    | nil => simp [operatorEq]
    | cons y b =>
      cases hxy : ops.eq x y with
      | true => simp [operatorEq, hne, hxy, ih]
      | false => simp [operatorEq, hne, hxy]

/-- C11: when the element `!=` is the negation of `==`, `a == b` returns true exactly when
`a` and `b` have the same number of elements and at every position the element of `a`
compares equal to the element of `b`; and `a != b` returns the negation of `a == b`. -/
theorem list_equality_spec (ops : Ops α) (hne : ∀ x y, ops.ne x y = !ops.eq x y)
    (a b : List α) :
    (operatorEq ops a b = true ↔
      a.length = b.length ∧
        ∀ i (ha : i < a.length) (hb : i < b.length),
          ops.eq (a.get ⟨i, ha⟩) (b.get ⟨i, hb⟩) = true) ∧
    operatorNe ops a b = !operatorEq ops a b := by
  refine ⟨?_, rfl⟩
  rw [operatorEq_iff_forall₂ ops hne, List.forall₂_iff_get]

theorem list_equality_spec_witness :
    (∀ x y, natOps.ne x y = !natOps.eq x y) ∧
    operatorEq natOps [1, 2, 3] [1, 2, 3] = true ∧ operatorNe natOps [1, 2, 3] [1, 2] = true :=
  ⟨by intro x y; simp [natOps],
    (list_equality_spec natOps (by intro x y; simp [natOps]) [1, 2, 3] [1, 2, 3]).1.2
      ⟨rfl, by decide⟩,
    by rw [(list_equality_spec natOps (by intro x y; simp [natOps]) [1, 2, 3] [1, 2]).2]; decide⟩

/-! ## Printing -/

theorem intercalate_go_append (sep out : String) (l : List String) (acc : String) :
    String.intercalate.go (out ++ acc) sep l = out ++ String.intercalate.go acc sep l := by
  induction l generalizing acc with
  | nil => simp [String.intercalate.go]
  | cons a l ih =>
    simp only [String.intercalate.go]
    rw [← ih, String.append_assoc, String.append_assoc, String.append_assoc]

theorem operatorStreamInsert_cons (write : α → String) (out : String) (d : α)
    (rest : List α) :
    operatorStreamInsert write out (d :: rest) =
      String.intercalate.go (out ++ write d) " " (rest.map write) := by
  induction rest generalizing out d with
  | nil => simp [operatorStreamInsert, String.intercalate.go]
  | cons e rest ih =>
    rw [operatorStreamInsert]
    simp only [List.isEmpty_cons, Bool.false_eq_true, if_false]
    rw [ih]
    simp [String.intercalate.go]

/-- C16: for every list, `operator<<` appends to the stream the elements in head-to-tail
order with exactly one space between consecutive elements and nothing before the first
or after the last, and nothing at all for an empty list; the list built by inserting
3, 1, 2 is written as the text `1 2 3`. -/
theorem stream_insert_spec (write : α → String) (outputStream : String) (l : List α) :
    operatorStreamInsert write outputStream l =
        outputStream ++ String.intercalate " " (l.map write) ∧
      operatorStreamInsert write outputStream [] = outputStream ∧
      operatorStreamInsert (fun n : Nat => toString n) ""
        (insertCalls natOps [] [some 3, some 1, some 2]) = "1 2 3" := by
  refine ⟨?_, rfl, by decide⟩
  cases l with
  | nil => simp [operatorStreamInsert, String.intercalate]
  | cons d rest =>
    rw [operatorStreamInsert_cons, intercalate_go_append]
    simp [String.intercalate]

/-! ## `DeleteList` and `isEmpty` -/

/-- C17: for every list `L`, after `DeleteList` the list is empty and `isEmpty()` returns
true; on an already empty list `DeleteList` changes nothing; and `isEmpty()` returns
true exactly when the list has no elements. -/
theorem deleteList_spec (L : List α) :
    DeleteList L = [] ∧ isEmpty (DeleteList L) = true ∧
      DeleteList ([] : List α) = [] ∧ (isEmpty L = true ↔ L.length = 0) := by
  refine ⟨rfl, rfl, rfl, ?_⟩
  cases L with
  | nil => simp [isEmpty]
  | cons d rest => simp [isEmpty]

/-! ## `Merge` against `operator+=` -/

/-- C19: for lists `a` (at address `i`) and `b` (at a different address `j`), `a += b`
returns, and the contents of `a` after `a.Merge(b)` are element for element the contents
of `a` after `a += b` on the same lists; `Merge` leaves `b` empty, `+=` leaves `b` as it
was, and on every other instance the two stores agree. -/
theorem merge_eq_plusAssign (ops : Ops α) (s : Store α) (i j : Nat) (hij : i ≠ j)
    (fuel : Nat) :
    ∃ s2, operatorPlusAssign ops fuel s i j = some s2 ∧
      (Merge ops s i j).2 i = s2 i ∧
      (Merge ops s i j).2 j = [] ∧ s2 j = s j ∧
      ∀ k, k ≠ j → (Merge ops s i j).2 k = s2 k := by
  refine ⟨s.set i (insertEach ops (s i) (s j)), by simp [operatorPlusAssign, hij], ?_, ?_, ?_, ?_⟩
  · simp [Merge, hij, Store.set_other _ j i _ hij]
  · simp [Merge, hij, DeleteList]
  · exact Store.set_other s i j _ (Ne.symm hij)
  · intro k hk
    simp [Merge, hij, Store.set_other _ j k _ hk]

theorem merge_eq_plusAssign_witness :
    (0 : Nat) ≠ 1 ∧
    ∃ s2, operatorPlusAssign natOps 0 ((Store.empty.set 0 [1, 3, 5]).set 1 [2, 3, 4]) 0 1 =
        some s2 ∧
      (Merge natOps ((Store.empty.set 0 [1, 3, 5]).set 1 [2, 3, 4]) 0 1).2 0 = s2 0 ∧
      (Merge natOps ((Store.empty.set 0 [1, 3, 5]).set 1 [2, 3, 4]) 0 1).2 1 = [] ∧
      s2 1 = ((Store.empty.set 0 [1, 3, 5]).set 1 [2, 3, 4]) 1 ∧
      ∀ k, k ≠ 1 →
        (Merge natOps ((Store.empty.set 0 [1, 3, 5]).set 1 [2, 3, 4]) 0 1).2 k = s2 k :=
  ⟨by decide,
    merge_eq_plusAssign natOps ((Store.empty.set 0 [1, 3, 5]).set 1 [2, 3, 4]) 0 1
      (by decide) 0⟩

/-! ## Lists that satisfy the class invariant -/

theorem sorted_of_insertEach {ops : Ops α} (h : StrictTotalOrder ops) (l source : List α)
    (hs : Sorted ops l) : Sorted ops (insertEach ops l source) := by
  induction source generalizing l with
  | nil => exact hs
  | cons d rest ih => exact ih _ (sorted_of_Insert h l (some d) hs)

theorem mem_of_mem_Insert (ops : Ops α) (l : List α) (v x : α)
    (hx : x ∈ (Insert ops l (some v)).2) : x ∈ l ∨ x = v := by
  rw [Insert_some] at hx
  by_cases hdup : Insert.findDuplicate ops v l = true
  · left; simpa [hdup] using hx
  · simp only [hdup, Bool.false_eq_true, if_false, List.mem_append, List.mem_cons] at hx
    rcases hx with hx | hx | hx
    · exact Or.inl (List.takeWhile_subset _ hx)
    · exact Or.inr hx
    · exact Or.inl ((List.dropWhile_sublist _).subset hx)

theorem mem_of_mem_insertEach (ops : Ops α) (l source : List α) (x : α)
    (hx : x ∈ insertEach ops l source) : x ∈ l ∨ x ∈ source := by
  induction source generalizing l with
  | nil => exact Or.inl hx
  | cons d rest ih =>
    rcases ih _ hx with h1 | h1
    · rcases mem_of_mem_Insert ops l d x h1 with h2 | h2
      · exact Or.inl h2
      · exact Or.inr (h2 ▸ List.mem_cons_self d rest)
    · exact Or.inr (List.mem_cons_of_mem d h1)

theorem insertEach_append (ops : Ops α) (l xs ys : List α) :
    insertEach ops l (xs ++ ys) = insertEach ops (insertEach ops l xs) ys := by
  induction xs generalizing l with
  | nil => rfl
  | cons d rest ih => exact ih _

/-- In a sorted duplicate-free list every element is `<` every later one. -/
theorem strict_of_sorted {ops : Ops α} (h : StrictTotalOrder ops) (l : List α)
    (hs : Sorted ops l) (hn : NoDuplicates ops l) :
    l.Pairwise (fun a b => ops.lt a b = true) := by
  refine (List.Pairwise.and hs hn).imp ?_
  intro a b hab
  rcases h.lt_total a b hab.2.1 with h1 | h1
  · exact h1
  · rw [hab.1] at h1; exact absurd h1 (by simp)

/-- Walking a list that satisfies the invariant and inserting each element into a list
that holds the elements before it appends it at the tail. -/
theorem insertEach_sorted_tail {ops : Ops α} (h : StrictTotalOrder ops) (pre rest : List α)
    (hs : Sorted ops (pre ++ rest)) (hn : NoDuplicates ops (pre ++ rest)) :
    insertEach ops pre rest = pre ++ rest := by
  induction rest generalizing pre with
  | nil => simp [insertEach]
  | cons d rest ih =>
    have hstrict := strict_of_sorted h _ hs hn
    have hlt : ∀ p ∈ pre, ops.lt p d = true := fun p hp =>
      (List.pairwise_append.mp hstrict).2.2 p hp d (List.mem_cons_self d rest)
    have hneq : ∀ p ∈ pre, ops.eq p d = false := fun p hp =>
      ((List.pairwise_append.mp hn).2.2 p hp d (List.mem_cons_self d rest)).1
    have hins : (Insert ops pre (some d)).2 = pre ++ [d] := by
      rw [Insert_some, Insert.findDuplicate_eq_false.mpr hneq,
        List.takeWhile_eq_self_iff.mpr (by simpa using hlt),
        List.dropWhile_eq_nil_iff.mpr (by simpa using hlt)]
      rfl
    have happ : (pre ++ [d]) ++ rest = pre ++ d :: rest := by simp
    rw [insertEach, hins, ih (pre ++ [d]) (happ ▸ hs) (happ ▸ hn), happ]

/-- The copy constructor reproduces a list that satisfies the invariant. -/
theorem copyConstructor_eq_self {ops : Ops α} (h : StrictTotalOrder ops) (a : List α)
    (hs : Sorted ops a) (hn : NoDuplicates ops a) : copyConstructor ops a = a := by
  have := insertEach_sorted_tail h [] a (by simpa using hs) (by simpa using hn)
  simpa [copyConstructor] using this

theorem StrictTotalOrder.lt_of_eq_right {ops : Ops α} (h : StrictTotalOrder ops) (a b y : α)
    (hay : ops.eq a y = true) (hby : ops.lt b y = true) : ops.lt b a = true := by
  cases hq : ops.eq b a with
  | true =>
    have := (h.eq_not_lt b y (h.eq_trans b a y hq hay)).1
    rw [hby] at this; exact absurd this (by simp)
  | false =>
    rcases h.lt_total b a hq with h1 | h1
    · exact h1
    · have := (h.eq_not_lt a y hay).1
      rw [h.lt_trans a b y h1 hby] at this; exact absurd this (by simp)

/-- Two strictly increasing lists, each of whose elements compares equal to an element of
the other, compare equal position by position. -/
theorem forall₂_eq_of_strict {ops : Ops α} (h : StrictTotalOrder ops) (l1 l2 : List α)
    (hs1 : l1.Pairwise (fun a b => ops.lt a b = true))
    (hs2 : l2.Pairwise (fun a b => ops.lt a b = true))
    (h12 : ∀ x ∈ l1, ∃ y ∈ l2, ops.eq x y = true)
    (h21 : ∀ y ∈ l2, ∃ x ∈ l1, ops.eq y x = true) :
    List.Forall₂ (fun x y => ops.eq x y = true) l1 l2 := by
  induction l1 generalizing l2 with
  | nil =>
    cases l2 with
    | nil => exact List.Forall₂.nil
    | cons b bs =>
      obtain ⟨x, hx, _⟩ := h21 b (List.mem_cons_self b bs)
      simp at hx
  | cons a as ih =>
    cases l2 with
    | nil =>
      obtain ⟨y, hy, _⟩ := h12 a (List.mem_cons_self a as)
      simp at hy
    | cons b bs =>
      obtain ⟨ha, has⟩ := List.pairwise_cons.mp hs1
      obtain ⟨hb, hbs⟩ := List.pairwise_cons.mp hs2
      have hab : ops.eq a b = true := by
        obtain ⟨y, hy, hay⟩ := h12 a (List.mem_cons_self a as)
        rcases List.mem_cons.mp hy with rfl | hy
        · exact hay
        · have hba : ops.lt b a = true := h.lt_of_eq_right a b y hay (hb y hy)
          obtain ⟨x, hx, hbx⟩ := h21 b (List.mem_cons_self b bs)
          rcases List.mem_cons.mp hx with rfl | hx
          · exact h.eq_symm _ _ hbx
          · have hab1 : ops.lt a b = true := h.lt_of_eq_right b a x hbx (ha x hx)
            have := h.lt_asymm a b hab1
            rw [hba] at this; exact absurd this (by simp)
      refine List.Forall₂.cons hab (ih bs has hbs ?_ ?_)
      · intro x hx
        obtain ⟨y, hy, hxy⟩ := h12 x (List.mem_cons_of_mem a hx)
        rcases List.mem_cons.mp hy with rfl | hy
        · have hxa : ops.eq x a = true := h.eq_trans x y a hxy (h.eq_symm _ _ hab)
          have := (h.eq_not_lt x a hxa).2
          rw [ha x hx] at this; exact absurd this (by simp)
        · exact ⟨y, hy, hxy⟩
      · intro y hy
        obtain ⟨x, hx, hyx⟩ := h21 y (List.mem_cons_of_mem b hy)
        rcases List.mem_cons.mp hx with rfl | hx
        · have hyb : ops.eq y b = true := h.eq_trans y x b hyx hab
          have := (h.eq_not_lt y b hyb).2
          rw [hb y hy] at this; exact absurd this (by simp)
        · exact ⟨x, hx, hyx⟩

/-- Two lists that satisfy the invariant and hold the same values up to `==` are equal
under `operator==`. -/
theorem operatorEq_of_same_values {ops : Ops α} (h : StrictTotalOrder ops)
    (hne : ∀ x y, ops.ne x y = !ops.eq x y) (l1 l2 : List α)
    (hs1 : Sorted ops l1) (hn1 : NoDuplicates ops l1)
    (hs2 : Sorted ops l2) (hn2 : NoDuplicates ops l2)
    (h12 : ∀ x ∈ l1, ∃ y ∈ l2, ops.eq x y = true)
    (h21 : ∀ y ∈ l2, ∃ x ∈ l1, ops.eq y x = true) : operatorEq ops l1 l2 = true :=
  (operatorEq_iff_forall₂ ops hne l1 l2).mpr
    (forall₂_eq_of_strict h l1 l2 (strict_of_sorted h l1 hs1 hn1)
      (strict_of_sorted h l2 hs2 hn2) h12 h21)

/-! ## Lists built from a sequence of values -/

theorem Insert_rejects_equal (ops : Ops α) (l : List α) (x : α)
    (hx : ∃ d ∈ l, ops.eq d x = true) : (Insert ops l (some x)).2 = l := by
  rw [Insert_some, Insert.findDuplicate_eq_true.mpr hx]
  rfl

theorem insertCalls_map_some (ops : Ops α) (l values : List α) :
    insertCalls ops l (values.map some) = insertEach ops l values := by
  induction values generalizing l with
  | nil => rfl
  | cons v rest ih => exact ih _

theorem BuildList_loop_eq (ops : Ops α) (l values : List α) :
    BuildList.loop ops l values = insertEach ops l values := by
  induction values generalizing l with
  | nil => rfl
  | cons v rest ih => exact ih _

/-- Inserting a sequence of values into an empty list gives the sorted sequence of its
distinct values: sorted, duplicate-free, made of values of the sequence, and holding an
element equal to each value of the sequence. -/
theorem insertEach_nil_spec {ops : Ops α} (h : StrictTotalOrder ops) (values : List α) :
    Sorted ops (insertEach ops [] values) ∧ NoDuplicates ops (insertEach ops [] values) ∧
      (∀ x ∈ insertEach ops [] values, x ∈ values) ∧
      ∀ v ∈ values, ∃ d ∈ insertEach ops [] values, ops.eq d v = true := by
  refine ⟨sorted_of_insertEach h [] values List.Pairwise.nil,
    noDuplicates_of_insertEach h.eq_symm [] values List.Pairwise.nil, ?_,
    insertEach_holds_equal ops h.eq_refl [] values⟩
  intro x hx
  rcases mem_of_mem_insertEach ops [] values x hx with h1 | h1
  · simp at h1
  · exact h1

/-- C12: under a strict total order consistent with `==`, with `!=` the negation of `==`,
for every finite sequence of values `xs` and every permutation `ys` of it, the list
built by inserting `xs` into an empty list and the list built by inserting `ys` compare
equal under `operator==`; each of the two is sorted, duplicate-free, made of values of
the sequence and holds an element equal to each value of the sequence.  Inserting
3, 1, 2 and inserting 1, 2, 3 both give the list 1, 2, 3, and the two compare equal. -/
theorem insert_order_irrelevant (ops : Ops α) (h : StrictTotalOrder ops)
    (hne : ∀ x y, ops.ne x y = !ops.eq x y) (xs ys : List α) (hperm : List.Perm xs ys) :
    operatorEq ops (insertCalls ops [] (xs.map some)) (insertCalls ops [] (ys.map some)) = true ∧
    (Sorted ops (insertCalls ops [] (xs.map some)) ∧
      NoDuplicates ops (insertCalls ops [] (xs.map some)) ∧
      (∀ x ∈ insertCalls ops [] (xs.map some), x ∈ xs) ∧
      ∀ v ∈ xs, ∃ d ∈ insertCalls ops [] (xs.map some), ops.eq d v = true) ∧
    (Sorted ops (insertCalls ops [] (ys.map some)) ∧
      NoDuplicates ops (insertCalls ops [] (ys.map some)) ∧
      (∀ x ∈ insertCalls ops [] (ys.map some), x ∈ ys) ∧
      ∀ v ∈ ys, ∃ d ∈ insertCalls ops [] (ys.map some), ops.eq d v = true) ∧
    (insertCalls natOps [] [some 3, some 1, some 2] = [1, 2, 3] ∧
      insertCalls natOps [] [some 1, some 2, some 3] = [1, 2, 3] ∧
      operatorEq natOps (insertCalls natOps [] [some 3, some 1, some 2])
        (insertCalls natOps [] [some 1, some 2, some 3]) = true) := by
  rw [insertCalls_map_some, insertCalls_map_some]
  have hx := insertEach_nil_spec h xs
  have hy := insertEach_nil_spec h ys
  refine ⟨?_, hx, hy, by decide, by decide, by decide⟩
  refine operatorEq_of_same_values h hne _ _ hx.1 hx.2.1 hy.1 hy.2.1 ?_ ?_
  · intro x hxm
    obtain ⟨d, hd, hdx⟩ := hy.2.2.2 x (hperm.subset (hx.2.2.1 x hxm))
    exact ⟨d, hd, h.eq_symm _ _ hdx⟩
  · intro y hym
    obtain ⟨d, hd, hdy⟩ := hx.2.2.2 y (hperm.symm.subset (hy.2.2.1 y hym))
    exact ⟨d, hd, h.eq_symm _ _ hdy⟩

theorem insert_order_irrelevant_witness :
    (StrictTotalOrder natOps ∧ (∀ x y, natOps.ne x y = !natOps.eq x y) ∧
      List.Perm [5, 3, 5, 1] [1, 5, 5, 3]) ∧
    operatorEq natOps (insertCalls natOps [] ([5, 3, 5, 1].map some))
      (insertCalls natOps [] ([1, 5, 5, 3].map some)) = true :=
  ⟨⟨natOps_strictTotalOrder, by intro x y; simp [natOps], by decide⟩,
    (insert_order_irrelevant natOps natOps_strictTotalOrder (by intro x y; simp [natOps])
      [5, 3, 5, 1] [1, 5, 5, 3] (by decide)).1⟩

/-- C15: under a strict total order consistent with `==`, for a file that opens and
yields the finite sequence `values`, `BuildList` on an empty list returns true and
leaves the distinct values of the sequence in ascending order: the list is sorted and
duplicate-free, each of its elements is a value of the sequence, and each value of the
sequence has an equal element in it.  A value equal to an earlier value of the sequence
is skipped: the outcome is the same as without it.  For the values 5 3 5 1 the list is
1 3 5. -/
theorem buildList_spec (ops : Ops α) (h : StrictTotalOrder ops) (values : List α) :
    (BuildList ops [] (some values)).1 = true ∧
    Sorted ops (BuildList ops [] (some values)).2 ∧
    NoDuplicates ops (BuildList ops [] (some values)).2 ∧
    (∀ x ∈ (BuildList ops [] (some values)).2, x ∈ values) ∧
    (∀ v ∈ values, ∃ d ∈ (BuildList ops [] (some values)).2, ops.eq d v = true) ∧
    (∀ pre v post, values = pre ++ v :: post → (∃ p ∈ pre, ops.eq p v = true) →
      BuildList ops [] (some values) = BuildList ops [] (some (pre ++ post))) ∧
    BuildList natOps [] (some [5, 3, 5, 1]) = (true, [1, 3, 5]) := by
  have hv := insertEach_nil_spec h values
  simp only [BuildList, BuildList_loop_eq]
  refine ⟨trivial, hv.1, hv.2.1, hv.2.2.1, hv.2.2.2, ?_, by decide⟩
  intro pre v post hvals hp
  obtain ⟨p, hpm, hpv⟩ := hp
  obtain ⟨d, hd, hdp⟩ := insertEach_holds_equal ops h.eq_refl [] pre p hpm
  have hrej : (Insert ops (insertEach ops [] pre) (some v)).2 = insertEach ops [] pre := by
    rw [Insert_rejects_equal ops _ v ⟨d, hd, h.eq_trans d p v hdp hpv⟩]
  rw [hvals, insertEach_append, insertEach_append, insertEach, hrej]

theorem buildList_spec_witness :
    StrictTotalOrder natOps ∧
    (BuildList natOps [] (some [5, 3, 5, 1])).1 = true ∧
    BuildList natOps [] (some [5, 3, 5, 1]) = BuildList natOps [] (some ([5, 3] ++ [1])) :=
  ⟨natOps_strictTotalOrder,
    (buildList_spec natOps natOps_strictTotalOrder [5, 3, 5, 1]).1,
    (buildList_spec natOps natOps_strictTotalOrder [5, 3, 5, 1]).2.2.2.2.2.1 [5, 3] 5 [1] rfl
      (by decide)⟩

/-! ## Concatenation and copies -/

theorem Insert.findDuplicate_eq_any (ops : Ops α) (x : α) (l : List α) :
    Insert.findDuplicate ops x l = l.any (fun d => ops.eq d x) := by
  induction l with
  | nil => rfl
  | cons d rest ih =>
    cases hd : ops.eq d x with
    | true => simp [Insert.findDuplicate, hd]
    | false => simp [Insert.findDuplicate, hd, ih]

/-- Inserting the elements of a duplicate-free list `b` into `l` keeps every element of
`l` and adds exactly the elements of `b` to which no element of `l` compares equal. -/
theorem insertEach_perm (ops : Ops α) (l b : List α) (hnb : NoDuplicates ops b) :
    List.Perm (insertEach ops l b)
      (l ++ b.filter (fun y => !l.any (fun x => ops.eq x y))) := by
  induction b generalizing l with
  | nil => simp [insertEach]
  | cons y rest ih =>
    obtain ⟨hy, hrest⟩ := List.pairwise_cons.mp hnb
    rw [insertEach, Insert_some, Insert.findDuplicate_eq_any]
    cases hdup : l.any (fun d => ops.eq d y) with
    | true =>
      simp only [if_true]
      rw [List.filter_cons_of_neg (by simp [hdup])]
      exact ih l hrest
    | false =>
      simp only [Bool.false_eq_true, if_false]
      rw [List.filter_cons_of_pos (by simp [hdup])]
      have hsplit := List.takeWhile_append_dropWhile (fun d => ops.lt d y) l
      have hfilter : rest.filter (fun z =>
            !(l.takeWhile (fun d => ops.lt d y) ++ y :: l.dropWhile (fun d => ops.lt d y)).any
              (fun x => ops.eq x z)) =
          rest.filter (fun z => !l.any (fun x => ops.eq x z)) := by
        apply List.filter_congr
        intro z hz
        conv_rhs => rw [← hsplit]
        simp only [List.any_append, List.any_cons, (hy z hz).1, Bool.false_or]
      have h1 := ih (l.takeWhile (fun d => ops.lt d y) ++ y :: l.dropWhile (fun d => ops.lt d y))
        hrest
      rw [hfilter] at h1
      refine h1.trans ?_
      have h2 : List.Perm
          (l.takeWhile (fun d => ops.lt d y) ++ y :: l.dropWhile (fun d => ops.lt d y))
          (y :: l) := by
        have := @List.perm_middle α y (l.takeWhile (fun d => ops.lt d y))
          (l.dropWhile (fun d => ops.lt d y))
        rwa [hsplit] at this
      exact (h2.append_right _).trans List.perm_middle.symm

/-- C13: under a strict total order consistent with `==`, for sorted duplicate-free lists
`a` (at address `i`) and `b` (at `j`), building `c = a + b` at a fresh address leaves
`a` and `b` as they were, and `c` is sorted and duplicate-free and holds the union of
the two: all of `a`, in order (its own elements), and besides them exactly the elements
of `b` to which no element of `a` compares equal. -/
theorem plus_spec (ops : Ops α) (h : StrictTotalOrder ops) (s : Store α) (c i j : Nat)
    (hci : c ≠ i) (hcj : c ≠ j) (fuel : Nat)
    (hsa : Sorted ops (s i)) (hna : NoDuplicates ops (s i))
    (_hsb : Sorted ops (s j)) (hnb : NoDuplicates ops (s j)) :
    ∃ s1, (Call.plus c i j).run ops fuel s = some s1 ∧
      s1 c = operatorPlus ops (s i) (s j) ∧ s1 i = s i ∧ s1 j = s j ∧
      Sorted ops (s1 c) ∧ NoDuplicates ops (s1 c) ∧
      List.Sublist (s i) (s1 c) ∧
      List.Perm (s1 c) (s i ++ (s j).filter (fun y => !(s i).any (fun x => ops.eq x y))) ∧
      ∀ z, z ∈ s1 c ↔ z ∈ s i ∨ (z ∈ s j ∧ ∀ x ∈ s i, ops.eq x z = false) := by
  have hplus : operatorPlus ops (s i) (s j) = insertEach ops (s i) (s j) := by
    rw [operatorPlus, copyConstructor_eq_self h (s i) hsa hna]
  have hperm := insertEach_perm ops (s i) (s j) hnb
  refine ⟨s.set c (operatorPlus ops (s i) (s j)), rfl, Store.set_same _ _ _,
    Store.set_other _ _ _ _ (Ne.symm hci), Store.set_other _ _ _ _ (Ne.symm hcj), ?_⟩
  rw [Store.set_same, hplus]
  refine ⟨sorted_of_insertEach h _ _ hsa, noDuplicates_of_insertEach h.eq_symm _ _ hna,
    insertEach_sublist ops _ _, hperm, ?_⟩
  intro z
  rw [hperm.mem_iff]
  simp

theorem plus_spec_witness :
    (StrictTotalOrder natOps ∧ (2 : Nat) ≠ 0 ∧ (2 : Nat) ≠ 1 ∧
      Sorted natOps (((Store.empty.set 0 [1, 3, 5]).set 1 [2, 3, 4]) 0) ∧
      NoDuplicates natOps (((Store.empty.set 0 [1, 3, 5]).set 1 [2, 3, 4]) 0) ∧
      Sorted natOps (((Store.empty.set 0 [1, 3, 5]).set 1 [2, 3, 4]) 1) ∧
      NoDuplicates natOps (((Store.empty.set 0 [1, 3, 5]).set 1 [2, 3, 4]) 1)) ∧
    ∃ s1, (Call.plus 2 0 1).run natOps 0 ((Store.empty.set 0 [1, 3, 5]).set 1 [2, 3, 4]) =
        some s1 ∧
      s1 2 = [1, 2, 3, 4, 5] ∧ s1 0 = [1, 3, 5] ∧ s1 1 = [2, 3, 4] :=
  ⟨⟨natOps_strictTotalOrder, by decide, by decide, by decide, by decide, by decide, by decide⟩,
    by
      obtain ⟨s1, hrun, hc, ha, hb, _⟩ :=
        plus_spec natOps natOps_strictTotalOrder ((Store.empty.set 0 [1, 3, 5]).set 1 [2, 3, 4])
          2 0 1 (by decide) (by decide) 0 (by decide) (by decide) (by decide) (by decide)
      exact ⟨s1, hrun, by rw [hc]; decide, by rw [ha]; decide, by rw [hb]; decide⟩⟩

/-- C14: under a strict total order consistent with `==`, with `!=` the negation of `==`,
for a list `a` (at address `j`) that is sorted and duplicate-free: the copy-constructed
list holds the elements of `a` in the same order and compares `==` to `a`, and building
it at another address leaves `a` as it was; after `d = a`, for `d` at any address `i`
with any contents, `d` holds the elements of `a` in the same order and compares `==` to
`a`, and `a` is as it was; what `d` held before makes no difference. -/
theorem copy_and_assign_spec (ops : Ops α) (h : StrictTotalOrder ops)
    (hne : ∀ x y, ops.ne x y = !ops.eq x y) (s : Store α) (i j : Nat)
    (hs : Sorted ops (s j)) (hn : NoDuplicates ops (s j)) :
    (copyConstructor ops (s j) = s j ∧
      operatorEq ops (copyConstructor ops (s j)) (s j) = true ∧
      ∀ c fuel, c ≠ j → ∃ s1, (Call.copyConstruct c j).run ops fuel s = some s1 ∧
        s1 c = s j ∧ s1 j = s j) ∧
    ((operatorAssign ops s i j) i = s j ∧
      operatorEq ops ((operatorAssign ops s i j) i) (s j) = true ∧
      (operatorAssign ops s i j) j = s j) ∧
    (i ≠ j → ∀ l, (operatorAssign ops (s.set i l) i j) i = s j) := by
  have hcopy := copyConstructor_eq_self h (s j) hs hn
  have hself : operatorEq ops (s j) (s j) = true :=
    operatorEq_self ops (fun a => by rw [hne, h.eq_refl]; rfl) (s j)
  have hassign : ∀ t : Store α, t j = s j → (operatorAssign ops t i j) i = s j := by
    intro t ht
    by_cases hij : i = j
    · simp [operatorAssign, hij, ht]
    · simp only [operatorAssign, hij, if_false, Store.set_same, DeleteList, ht]
      exact hcopy
  refine ⟨⟨hcopy, by rw [hcopy]; exact hself, ?_⟩, ⟨hassign s rfl, ?_, ?_⟩, ?_⟩
  · intro c fuel hc
    refine ⟨_, rfl, ?_, ?_⟩
    · rw [Store.set_same, Store.set_other _ _ _ _ (Ne.symm hc)]; exact hcopy
    · rw [Store.set_other _ _ _ _ (Ne.symm hc), Store.set_other _ _ _ _ (Ne.symm hc)]
  · rw [hassign s rfl]; exact hself
  · by_cases hij : i = j
    · simp [operatorAssign, hij]
    · simp only [operatorAssign, hij, if_false]
      exact Store.set_other _ _ _ _ (Ne.symm hij)
  · intro hij l
    exact hassign (s.set i l) (Store.set_other _ _ _ _ (Ne.symm hij))

theorem copy_and_assign_spec_witness :
    (StrictTotalOrder natOps ∧ (∀ x y, natOps.ne x y = !natOps.eq x y) ∧
      Sorted natOps (((Store.empty.set 0 [9, 7, 7]).set 1 [2, 3, 4]) 1) ∧
      NoDuplicates natOps (((Store.empty.set 0 [9, 7, 7]).set 1 [2, 3, 4]) 1)) ∧
    (operatorAssign natOps ((Store.empty.set 0 [9, 7, 7]).set 1 [2, 3, 4]) 0 1) 0 =
      ((Store.empty.set 0 [9, 7, 7]).set 1 [2, 3, 4]) 1 :=
  ⟨⟨natOps_strictTotalOrder, by intro x y; simp [natOps], by decide, by decide⟩,
    (copy_and_assign_spec natOps natOps_strictTotalOrder (by intro x y; simp [natOps])
      ((Store.empty.set 0 [9, 7, 7]).set 1 [2, 3, 4]) 0 1 (by decide) (by decide)).2.1.1⟩

/-! ## The class invariant in every store a program reaches -/

theorem insertEach_preserves (ops : Ops α) (P : List α → Prop)
    (hins : ∀ l c, P l → P (Insert ops l c).2) (l source : List α) (hl : P l) :
    P (insertEach ops l source) := by
  induction source generalizing l with
  | nil => exact hl
  | cons d rest ih => exact ih _ (hins l (some d) hl)

theorem operatorPlusAssign.selfLoop_preserves (ops : Ops α) (P : List α → Prop)
    (hins : ∀ l c, P l → P (Insert ops l c).2) (fuel : Nat) (l : List α) (cur : Nat)
    (l1 : List α) (hrun : operatorPlusAssign.selfLoop ops fuel l cur = some l1) (hl : P l) :
    P l1 := by
  induction fuel generalizing l cur with
  | zero => simp [operatorPlusAssign.selfLoop] at hrun
  | succ f ih =>
    unfold operatorPlusAssign.selfLoop at hrun
    cases hget : l[cur]? with
    | none =>
      rw [hget] at hrun
      simp only [Option.some.injEq] at hrun
      exact hrun ▸ hl
    | some d =>
      rw [hget] at hrun
      exact ih _ _ hrun (hins l (some d) hl)

theorem Store.set_preserves (P : List α → Prop) (s : Store α) (i : Nat) (l : List α)
    (hs : ∀ k, P (s k)) (hl : P l) : ∀ k, P ((s.set i l) k) := by
  intro k
  by_cases hk : k = i
  · simpa [Store.set, hk] using hl
  · simpa [Store.set, hk] using hs k

/-- A property of lists that holds of the empty list, survives `Insert` and passes to
sublists holds of every list after a call if it held of every list before. -/
theorem Call.run_preserves (ops : Ops α) (P : List α → Prop) (hnil : P [])
    (hins : ∀ l c, P l → P (Insert ops l c).2)
    (hsub : ∀ l1 l2 : List α, List.Sublist l1 l2 → P l2 → P l1) (c : Call α) (fuel : Nat)
    (s s1 : Store α) (hrun : c.run ops fuel s = some s1) (hs : ∀ k, P (s k)) :
    ∀ k, P (s1 k) := by
  cases c with
  | insert i newItem =>
    simp only [Call.run, Option.some.injEq] at hrun
    exact hrun ▸ Store.set_preserves P s i _ hs (hins _ _ (hs i))
  | remove i nodeToRemove output =>
    simp only [Call.run, Option.some.injEq] at hrun
    exact hrun ▸ Store.set_preserves P s i _ hs
      (hsub _ _ (Remove_sublist ops nodeToRemove output (s i)) (hs i))
  | deleteList i =>
    simp only [Call.run, Option.some.injEq] at hrun
    exact hrun ▸ Store.set_preserves P s i _ hs hnil
  | merge i j =>
    simp only [Call.run, Option.some.injEq] at hrun
    subst hrun
    by_cases hij : i = j
    · simpa [Merge, hij] using hs
    · simp only [Merge, hij, if_false]
      exact Store.set_preserves P _ j _
        (Store.set_preserves P s i _ hs (insertEach_preserves ops P hins _ _ (hs i))) hnil
  | assign i j =>
    simp only [Call.run, Option.some.injEq] at hrun
    subst hrun
    by_cases hij : i = j
    · simpa [operatorAssign, hij] using hs
    · simp only [operatorAssign, hij, if_false]
      exact Store.set_preserves P s i _ hs (insertEach_preserves ops P hins _ _ hnil)
  | copyConstruct d j =>
    simp only [Call.run, Option.some.injEq] at hrun
    exact hrun ▸ Store.set_preserves P _ d _ (Store.set_preserves P s d _ hs hnil)
      (insertEach_preserves ops P hins _ _ hnil)
  | plus d i j =>
    simp only [Call.run, Option.some.injEq] at hrun
    exact hrun ▸ Store.set_preserves P s d _ hs
      (insertEach_preserves ops P hins _ _ (insertEach_preserves ops P hins _ _ hnil))
  | plusAssign i j =>
    simp only [Call.run, operatorPlusAssign] at hrun
    by_cases hij : i = j
    · subst hij
      simp only [if_true] at hrun
      cases hloop : operatorPlusAssign.selfLoop ops fuel (s i) 0 with
      | none => simp [hloop] at hrun
      | some l1 =>
        rw [hloop] at hrun
        have hset : s.set i l1 = s1 := by simpa using hrun
        exact hset ▸ Store.set_preserves P s i l1 hs
          (operatorPlusAssign.selfLoop_preserves ops P hins fuel (s i) 0 l1 hloop (hs i))
    · simp only [hij, if_false, Option.some.injEq] at hrun
      exact hrun ▸ Store.set_preserves P s i _ hs
        (insertEach_preserves ops P hins _ _ (hs i))

/-- Under a strict total order consistent with `==`, every list in every store that a
sequence of public operations reaches from empty lists is sorted and duplicate-free. -/
theorem runCalls_invariant (ops : Ops α) (h : StrictTotalOrder ops) (calls : List (Call α))
    (fuel : Nat) (s0 s : Store α) (hrun : runCalls ops fuel s0 calls = some s)
    (hs0 : ∀ k, Sorted ops (s0 k) ∧ NoDuplicates ops (s0 k)) :
    ∀ k, Sorted ops (s k) ∧ NoDuplicates ops (s k) := by
  induction calls generalizing s0 with
  | nil =>
    simp only [runCalls, Option.some.injEq] at hrun
    exact hrun ▸ hs0
  | cons c calls ih =>
    unfold runCalls at hrun
    cases hc : c.run ops fuel s0 with
    | none => simp [hc] at hrun
    | some s1 =>
      simp only [hc] at hrun
      refine ih s1 hrun ?_
      exact Call.run_preserves ops (fun l => Sorted ops l ∧ NoDuplicates ops l)
        ⟨List.Pairwise.nil, List.Pairwise.nil⟩
        (fun l c hl => ⟨sorted_of_Insert h l c hl.1, noDuplicates_of_Insert h.eq_symm l c hl.2⟩)
        (fun l1 l2 hsub hl => ⟨List.Pairwise.sublist hsub hl.1, List.Pairwise.sublist hsub hl.2⟩)
        c fuel s0 s1 hc hs0

/-! ## `operator+=` against `operator+` -/

/-- For `a` sorted and duplicate-free and `b` a different instance, `a += b` leaves in `a`
what `a + b` returns, and leaves `b` alone. -/
theorem plusAssign_matches_plus (ops : Ops α) (h : StrictTotalOrder ops)
    (s : Store α) (i j : Nat) (hij : i ≠ j) (fuel : Nat)
    (hs : Sorted ops (s i)) (hn : NoDuplicates ops (s i)) :
    ∃ s1, operatorPlusAssign ops fuel s i j = some s1 ∧
      s1 i = operatorPlus ops (s i) (s j) ∧ s1 j = s j := by
  refine ⟨s.set i (insertEach ops (s i) (s j)), by simp [operatorPlusAssign, hij], ?_,
    Store.set_other _ _ _ _ (Ne.symm hij)⟩
  rw [Store.set_same, operatorPlus, copyConstructor_eq_self h (s i) hs hn]

/-- C18: under a strict total order consistent with `==`, in every store `s` that a
sequence of public operations reaches from empty lists, for every two lists `a` (at
address `i`) and `b` (at a different address `j`): `a += b` returns, the contents of `a`
afterwards are element for element the list that `a + b` produces from the same `a` and
`b`, and `b` is as it was. -/
theorem plusAssign_eq_plus (ops : Ops α) (h : StrictTotalOrder ops) (calls : List (Call α))
    (fuel : Nat) (s : Store α) (hrun : runCalls ops fuel Store.empty calls = some s)
    (i j : Nat) (hij : i ≠ j) (fuel1 : Nat) :
    ∃ s1, operatorPlusAssign ops fuel1 s i j = some s1 ∧
      s1 i = operatorPlus ops (s i) (s j) ∧ s1 j = s j := by
  have hinv := runCalls_invariant ops h calls fuel Store.empty s hrun
    (fun _ => ⟨List.Pairwise.nil, List.Pairwise.nil⟩)
  exact plusAssign_matches_plus ops h s i j hij fuel1 (hinv i).1 (hinv i).2

theorem plusAssign_eq_plus_witness :
    (StrictTotalOrder natOps ∧
      runCalls natOps 0 Store.empty
          [.insert 0 (some 5), .insert 0 (some 1), .insert 0 (some 3), .insert 1 (some 4),
            .insert 1 (some 3), .insert 1 (some 2)] =
        some ((((((Store.empty.set 0 [5]).set 0 [1, 5]).set 0 [1, 3, 5]).set 1 [4]).set 1
          [3, 4]).set 1 [2, 3, 4]) ∧
      (0 : Nat) ≠ 1) ∧
    ∃ s1, operatorPlusAssign natOps 0
        ((((((Store.empty.set 0 [5]).set 0 [1, 5]).set 0 [1, 3, 5]).set 1 [4]).set 1
          [3, 4]).set 1 [2, 3, 4]) 0 1 = some s1 ∧
      s1 0 = operatorPlus natOps [1, 3, 5] [2, 3, 4] ∧ s1 1 = [2, 3, 4] :=
  ⟨⟨natOps_strictTotalOrder, rfl, by decide⟩,
    plusAssign_eq_plus natOps natOps_strictTotalOrder
      [.insert 0 (some 5), .insert 0 (some 1), .insert 0 (some 3), .insert 1 (some 4),
        .insert 1 (some 3), .insert 1 (some 2)] 0 _ rfl 0 1 (by decide) 0⟩

/-! ## Algebra of `operator+` -/

theorem insertEach_all_rejected (ops : Ops α) (l source : List α)
    (hall : ∀ v ∈ source, ∃ d ∈ l, ops.eq d v = true) : insertEach ops l source = l := by
  induction source with
  | nil => rfl
  | cons v rest ih =>
    rw [insertEach, Insert_rejects_equal ops l v (hall v (List.mem_cons_self v rest))]
    exact ih (fun w hw => hall w (List.mem_cons_of_mem v hw))

/-- What `a + b` holds when `a` satisfies the invariant. -/
theorem operatorPlus_values {ops : Ops α} (h : StrictTotalOrder ops) (a b : List α)
    (hsa : Sorted ops a) (hna : NoDuplicates ops a) :
    Sorted ops (operatorPlus ops a b) ∧ NoDuplicates ops (operatorPlus ops a b) ∧
      (∀ z ∈ operatorPlus ops a b, z ∈ a ∨ z ∈ b) ∧
      (∀ x ∈ a, x ∈ operatorPlus ops a b) ∧
      ∀ y ∈ b, ∃ d ∈ operatorPlus ops a b, ops.eq d y = true := by
  rw [operatorPlus, copyConstructor_eq_self h a hsa hna]
  exact ⟨sorted_of_insertEach h a b hsa, noDuplicates_of_insertEach h.eq_symm a b hna,
    mem_of_mem_insertEach ops a b, fun x hx => (insertEach_sublist ops a b).subset hx,
    insertEach_holds_equal ops h.eq_refl a b⟩

theorem operatorPlus_covers {ops : Ops α} (h : StrictTotalOrder ops) (a b : List α)
    (hsa : Sorted ops a) (hna : NoDuplicates ops a)
    (hsb : Sorted ops b) (hnb : NoDuplicates ops b) :
    ∀ x ∈ operatorPlus ops a b, ∃ y ∈ operatorPlus ops b a, ops.eq x y = true := by
  have hab := operatorPlus_values h a b hsa hna
  have hba := operatorPlus_values h b a hsb hnb
  intro x hx
  rcases hab.2.2.1 x hx with hxa | hxb
  · obtain ⟨d, hd, hdx⟩ := hba.2.2.2.2 x hxa
    exact ⟨d, hd, h.eq_symm _ _ hdx⟩
  · exact ⟨x, hba.2.2.2.1 x hxb, h.eq_refl x⟩

/-- C20: under a strict total order consistent with `==`, with `!=` the negation of `==`,
for sorted duplicate-free lists `a` and `b`: `a + b` and `b + a` compare equal under
`operator==`, `a + a` compares equal to `a`, and `a` plus the empty list compares equal
to `a` (the last two are `a` itself, element for element). -/
theorem plus_algebra (ops : Ops α) (h : StrictTotalOrder ops)
    (hne : ∀ x y, ops.ne x y = !ops.eq x y) (a b : List α)
    (hsa : Sorted ops a) (hna : NoDuplicates ops a)
    (hsb : Sorted ops b) (hnb : NoDuplicates ops b) :
    operatorEq ops (operatorPlus ops a b) (operatorPlus ops b a) = true ∧
    (operatorEq ops (operatorPlus ops a a) a = true ∧ operatorPlus ops a a = a) ∧
    (operatorEq ops (operatorPlus ops a []) a = true ∧ operatorPlus ops a [] = a) := by
  have hab := operatorPlus_values h a b hsa hna
  have hba := operatorPlus_values h b a hsb hnb
  have hself : operatorEq ops a a = true :=
    operatorEq_self ops (fun x => by rw [hne, h.eq_refl]; rfl) a
  have haa : operatorPlus ops a a = a := by
    rw [operatorPlus, copyConstructor_eq_self h a hsa hna]
    exact insertEach_all_rejected ops a a (fun v hv => ⟨v, hv, h.eq_refl v⟩)
  have hnil : operatorPlus ops a [] = a := by
    rw [operatorPlus, copyConstructor_eq_self h a hsa hna]
    rfl
  refine ⟨?_, ⟨by rw [haa]; exact hself, haa⟩, ⟨by rw [hnil]; exact hself, hnil⟩⟩
  exact operatorEq_of_same_values h hne _ _ hab.1 hab.2.1 hba.1 hba.2.1
    (operatorPlus_covers h a b hsa hna hsb hnb) (operatorPlus_covers h b a hsb hnb hsa hna)

theorem plus_algebra_witness :
    (StrictTotalOrder natOps ∧ (∀ x y, natOps.ne x y = !natOps.eq x y) ∧
      Sorted natOps [1, 3, 5] ∧ NoDuplicates natOps [1, 3, 5] ∧
      Sorted natOps [2, 3, 4] ∧ NoDuplicates natOps [2, 3, 4]) ∧
    operatorEq natOps (operatorPlus natOps [1, 3, 5] [2, 3, 4])
      (operatorPlus natOps [2, 3, 4] [1, 3, 5]) = true :=
  ⟨⟨natOps_strictTotalOrder, by intro x y; simp [natOps], by decide, by decide, by decide,
      by decide⟩,
    (plus_algebra natOps natOps_strictTotalOrder (by intro x y; simp [natOps]) [1, 3, 5]
      [2, 3, 4] (by decide) (by decide) (by decide) (by decide)).1⟩

end LinkedList
